import Mathlib

/-!
# Verification of the SD-Auto generation-parameter parsing and replay pipeline

A shallow embedding, in Lean 4, of the core components of the SD-Auto operator
console (sources: `src/endpoints.ts`, `src/utils.ts`, `src/constants.ts`):

* the sidecar text-field extractor `parseImageParam`;
* the parameter assembler `parseImageParams` and the sorter
  `parseAndSortImageParams`;
* the directory override store (`dotKeysToTree`, `createOverridesTree`,
  `loadTxt2ImgOverrides` modelled as a map from directory paths to the
  dot-expanded contents of its override file);
* the generation session queue (`switchModelIfNeeded`, `switchVAEIfNeeded`,
  `setActiveVAE`, the per-item loop of `generateImages`);
* the reproduction verifier `compareImage` and the reproducibility
  classification of `GenerationQueue.reproduce`;
* the `PromiseQueue` promise-chaining discipline.

JavaScript strings are modelled as `List Char` (with `String` wrappers at the
interfaces); JavaScript numbers as `ℚ`, with `Option ℚ` where NaN (`none`)
must be distinguished; `undefined` as `Option.none`.  I/O-returning functions
take their inputs (file contents, override-file maps, HTTP rosters) as
explicit arguments.  `String.localeCompare` is modelled as code-unit
lexicographic comparison (the `LinearOrder String` order).
-/

namespace SDAuto

/-! ## JavaScript string primitives -/

/-- The whitespace characters relevant to the regex class `\s` as it is used in
the sources (space, tab, carriage return, vertical tab, form feed; the line
terminators are treated separately). -/
def jsWs (c : Char) : Bool :=
  c = ' ' || c = '\t' || c = '\x0b' || c = '\x0c'

/-- Line terminators for JavaScript multiline anchors (`\n` and `\r`). -/
def jsTerm (c : Char) : Bool :=
  c = '\n' || c = '\r'

/-- Smallest index `i` such that `pat` occurs in `hay` starting at `i`
(JavaScript `String.prototype.indexOf`, with `none` standing for `-1`). -/
def subFind : List Char → List Char → Option Nat
  | hay, pat =>
    if pat.isPrefixOf hay then some 0
    else
      match hay with
      | [] => none
      | _ :: t => (subFind t pat).map (· + 1)

/-- JavaScript `hay.indexOf(pat, start)` (with `none` for `-1`). -/
def subFindFrom (hay pat : List Char) (start : Nat) : Option Nat :=
  (subFind (hay.drop start) pat).map (· + start)

/-- JavaScript `hay.includes(pat)`. -/
def jsIncludes (hay pat : List Char) : Bool :=
  (subFind hay pat).isSome

/-- JavaScript `s.substring(a, b)` for integer arguments: both indices are
clamped to `[0, s.length]` and swapped when out of order. -/
def jsSubstring2 (s : List Char) (a b : Int) : List Char :=
  let n : Int := s.length
  let a2 := (max 0 (min a n)).toNat
  let b2 := (max 0 (min b n)).toNat
  ((s.take (max a2 b2)).drop (min a2 b2))

/-- JavaScript `s.substring(a)` (single-argument form). -/
def jsSubstringFrom (s : List Char) (a : Int) : List Char :=
  s.drop (max 0 a).toNat

/-- JavaScript `s.substring(a, b)` where `b` may be `undefined` (meaning: to
the end of the string). -/
def jsSubstringOpt (s : List Char) (a : Nat) (b : Option Nat) : List Char :=
  match b with
  | none => s.drop a
  | some e => jsSubstring2 s (a : Int) (e : Int)

/-- Model of `value.replace(/^(\s|\r)|(\s|\r)$/gim, "")`: a single whitespace
character is removed at the start of every line and a single whitespace
character is removed at the end of every line (`\n` and `\r` both act as line
terminators for the multiline anchors).  `atStart` records whether the scan
currently sits at a line start. -/
def trimGim : List Char → Bool → List Char
  | [], _ => []
  | c :: rest, atStart =>
    if jsTerm c then c :: trimGim rest true
    else if atStart && jsWs c then trimGim rest false
    else if jsWs c && (rest.headD 'x' = '\n' || rest.headD 'x' = '\r' || rest = []) then
      trimGim rest false
    else c :: trimGim rest false

/-! ### JavaScript numeric coercion (`+value` / `Number(value)`)

Decimal string forms only (optional sign, integer part, fractional part,
exponent); surrounding whitespace is ignored and the empty string converts to
`0`.  `none` stands for NaN.  (Hexadecimal/binary literal forms and
`Infinity`, which never occur in the sidecar format, are not modelled and
coerce to `none`.) -/

/-- Numeric value of a digit list (most significant first). -/
def digitsVal (l : List Char) : Nat :=
  l.foldl (fun acc c => acc * 10 + (c.toNat - 48)) 0

/-- All characters are decimal digits. -/
def allDigits (l : List Char) : Bool :=
  l.all (fun c => '0' ≤ c && c ≤ '9')

/-- Parse the unsigned mantissa-with-exponent part of a JavaScript decimal
number string; the whole input must be consumed. -/
def jsDecimal (l : List Char) : Option ℚ :=
  let ip := l.takeWhile (fun c => '0' ≤ c && c ≤ '9')
  let r1 := l.dropWhile (fun c => '0' ≤ c && c ≤ '9')
  let hasDot := r1.headD 'x' = '.'
  let fp := if hasDot then r1.tail.takeWhile (fun c => '0' ≤ c && c ≤ '9') else []
  let r2 := if hasDot then r1.tail.dropWhile (fun c => '0' ≤ c && c ≤ '9') else r1
  if ip = [] ∧ fp = [] then none
  else
    let mant : ℚ :=
      if fp = [] then (digitsVal ip : ℚ)
      else (digitsVal ip : ℚ) + (digitsVal fp : ℚ) / ((10 : ℚ) ^ fp.length)
    match r2 with
    | [] => some mant
    | e :: r3 =>
      if e = 'e' ∨ e = 'E' then
        let (negExp, ds) :=
          match r3 with
          | '+' :: ds => (false, ds)
          | '-' :: ds => (true, ds)
          | ds => (false, ds)
        if ds ≠ [] ∧ allDigits ds then
          some (if negExp then mant / (10 : ℚ) ^ digitsVal ds
                else mant * (10 : ℚ) ^ digitsVal ds)
        else none
      else none

/-- JavaScript `+s` on a string (`none` = NaN). -/
def jsToNumber (s : List Char) : Option ℚ :=
  let t := (s.dropWhile (fun c => jsWs c || jsTerm c)).reverse
  let t := (t.dropWhile (fun c => jsWs c || jsTerm c)).reverse
  match t with
  | [] => some 0
  | '+' :: r => jsDecimal r
  | '-' :: r => (jsDecimal r).map (fun q => -q)
  | r => jsDecimal r

end SDAuto

namespace SDAuto

/-! ## C7: the sidecar field extractor `parseImageParam`
(`src/endpoints.ts` lines 1399-1433) -/

/-- A JavaScript value returned by the extractor: a string or a number. -/
inductive JSVal where
  | str (s : String)
  | num (q : ℚ)
deriving DecidableEq, Repr

/-- Observable outcome of one `parseImageParam` call: the returned value
(`none` = `undefined`) and whether an error was caught and logged on the way
(the `console.error` in the `catch` block). -/
structure ParseResult where
  value : Option JSVal
  errorLogged : Bool
deriving DecidableEq, Repr

/-- The raw text a `parseImageParam` call extracts for a present field, before
numeric coercion: substring from the first occurrence of
`paramName + startDelimeter`, value between the start delimiter and the next
occurrence of the end delimiter (end of string when absent), with the
single-character per-line trim applied. -/
def extractedValue (imageParams paramName : String)
    (endDelimiter : String := ",") (startDelimeter : String := ": ") :
    List Char :=
  let hay := imageParams.data
  let raw := jsSubstringFrom hay
    (match subFind hay (paramName ++ startDelimeter).data with
     | some i => (i : Int)
     | none => -1)
  let startIndexI : Int :=
    (match subFind raw startDelimeter.data with
     | some i => (i : Int)
     | none => -1) + startDelimeter.length
  let startIndex : Nat := (max 0 startIndexI).toNat
  let endIndex : Option Nat :=
    match subFindFrom raw endDelimiter.data startIndex with
    | some i => if 0 < i then some i else none
    | none => none
  trimGim (jsSubstringOpt raw startIndex endIndex) true

/-- `parseImageParam` (`src/endpoints.ts` 1399-1433).  The `try`/`catch` of the
source never propagates: a missing required label and a NaN coercion are
thrown, caught in-function, logged, and turned into `undefined`; a missing
optional label returns `undefined` directly without logging. -/
def parseImageParam (imageParams paramName : String) (isNumber : Bool)
    (optional : Bool := false) (endDelimiter : String := ",")
    (startDelimeter : String := ": ") : ParseResult :=
  let hay := imageParams.data
  let hasParam := jsIncludes hay (paramName ++ ": ").data
  if !hasParam then
    if !optional then ⟨none, true⟩ else ⟨none, false⟩
  else
    let value := extractedValue imageParams paramName endDelimiter startDelimeter
    if isNumber then
      match jsToNumber value with
      | none => ⟨none, true⟩
      | some q => ⟨some (.num q), false⟩
    else ⟨some (.str ⟨value⟩), false⟩

/-- C7: for every input text and field name, `parseImageParam`
(a) returns `undefined` without logging when the field label is absent and the
field is optional; (b) yields a logged parse failure resulting in `undefined`
(not an exception to the caller) when the label is absent and the field is
required; and (c) under numeric coercion returns the number the extracted
text coerces to, or a logged `undefined` when the coercion gives NaN. -/
theorem parseImageParam_error_handling
    (text field endD startD : String) (isNum : Bool) :
    (jsIncludes text.data (field ++ ": ").data = false →
        parseImageParam text field isNum true endD startD = ⟨none, false⟩
      ∧ parseImageParam text field isNum false endD startD = ⟨none, true⟩)
    ∧ (∀ opt : Bool, jsIncludes text.data (field ++ ": ").data = true →
        parseImageParam text field true opt endD startD =
          match jsToNumber (extractedValue text field endD startD) with
          | some q => ⟨some (.num q), false⟩
          | none => ⟨none, true⟩) := by
  refine ⟨fun h => ⟨?_, ?_⟩, fun opt h => ?_⟩ <;>
    simp only [parseImageParam, h, Bool.not_false, Bool.not_true, if_true,
      if_false, Bool.false_eq_true, ite_false, ite_true]
  rcases hn : jsToNumber (extractedValue text field endD startD) with _ | q <;>
    simp [hn]

/-- Witness for C7 at concrete inputs: in the sidecar fragment
`"Steps: 20, Sampler: Euler a"`, the absent optional field `Clip skip` gives
an unlogged `undefined`, the absent required field `Seed` gives a logged
`undefined`, and the numeric field `Steps` coerces to `20`. -/
theorem parseImageParam_error_handling_witness :
    parseImageParam "Steps: 20, Sampler: Euler a" "Clip skip" true true "," ": "
        = ⟨none, false⟩
    ∧ parseImageParam "Steps: 20, Sampler: Euler a" "Seed" true false "," ": "
        = ⟨none, true⟩
    ∧ parseImageParam "Steps: 20, Sampler: Euler a" "Steps" true false "," ": "
        = ⟨some (.num 20), false⟩ := by
  refine ⟨((parseImageParam_error_handling "Steps: 20, Sampler: Euler a"
      "Clip skip" "," ": " true).1 (by decide)).1,
    ((parseImageParam_error_handling "Steps: 20, Sampler: Euler a"
      "Seed" "," ": " true).1 (by decide)).2, ?_⟩
  have h := (parseImageParam_error_handling "Steps: 20, Sampler: Euler a"
      "Steps" "," ": " true).2 false (by decide)
  rw [h]
  decide

end SDAuto

namespace SDAuto

/-! ## C3: the parameter assembler `parseImageParams`
(`src/endpoints.ts` lines 1436-1663)

The embedding covers every directly parsed scalar field of the assembler.  The
`aDetailer`, `cutoffTargets`, `tiledDiffusion` and `tiledVAE` sub-records are
not embedded (the latter two draw their fallbacks from the process
environment, not from parsed text).  The file content is passed as an
argument in place of the `fs.readFile` call, and the default
`DEFAULTS.RESTORE_FACES_STRENGTH` — whose numeric value is defined in a
constants revision not present under `src/` — is a parameter `dRFS`. -/

/-- A remote model-roster entry (`Model` in `src/types.ts`). -/
structure Model where
  hash : String
  name : String
  path : String
deriving DecidableEq, Repr

/-- A known-VAE roster entry (`VAE` in `src/types.ts`). -/
structure VAE where
  fileName : String
  hash : String
deriving DecidableEq, Repr

/-- The override fields consulted by `parseImageParams` (`Txt2ImgOverrides`);
`none` covers both an absent key and a JSON `null` (both trigger `??`). -/
structure Txt2ImgOverrides where
  model : Option String := none
  cfgScale : Option ℚ := none
  clipSkip : Option ℚ := none
  hiresDenoisingStrength : Option ℚ := none
  hiresScale : Option ℚ := none
  hiresSteps : Option ℚ := none
  hiresUpscaler : Option String := none
  restoreFaces : Option Bool := none
  restoreFacesStrength : Option ℚ := none
  sampler : Option String := none
  seed : Option ℚ := none
  steps : Option ℚ := none
  subseed : Option ℚ := none
  subseedStrength : Option ℚ := none
  vae : Option String := none
  template : Option String := none
  negTemplate : Option String := none
  cutoffEnabled : Option Bool := none
  cutoffPadding : Option String := none
  cutoffWeight : Option ℚ := none
  cutoffDisableForNeg : Option Bool := none
  cutoffStrong : Option Bool := none
  cutoffInterpolation : Option String := none
deriving DecidableEq, Repr

/-- The assembled generation-parameter record (`ImageParams` in
`src/types.ts`, restricted to the embedded fields).  `width`/`height` are
`Option (Option ℚ)`: outer `none` = `undefined` (missing dimension after the
split), inner `none` = NaN from the numeric coercion. -/
structure ImageParams where
  cfgScale : Option ℚ
  clipSkip : Option ℚ
  cutoffEnabled : Bool
  cutoffPadding : Option String
  cutoffWeight : Option ℚ
  cutoffDisableForNeg : Bool
  cutoffStrong : Bool
  cutoffInterpolation : Option String
  fileName : String
  height : Option (Option ℚ)
  hiresDenoisingStrength : Option ℚ
  hiresScale : Option ℚ
  hiresSteps : Option ℚ
  hiresUpscaler : Option String
  isUpscaled : Bool
  model : Option String
  modelHash : Option String
  negPrompt : String
  negTemplate : Option String
  prompt : String
  rawParams : String
  restoreFaces : Bool
  restoreFacesStrength : ℚ
  sampler : Option String
  seed : Option ℚ
  steps : Option ℚ
  subseed : Option ℚ
  subseedStrength : Option ℚ
  template : Option String
  width : Option (Option ℚ)
  vaeHash : String
deriving DecidableEq, Repr

/-- String-valued `parseImageParam` call (the value slot only, as used by the
assembler, which discards the logging flag). -/
def ppStr (text field : String) (optional : Bool)
    (endD : String := ",") (startD : String := ": ") : Option String :=
  match (parseImageParam text field false optional endD startD).value with
  | some (.str s) => some s
  | _ => none

/-- Number-valued `parseImageParam` call. -/
def ppNum (text field : String) (optional : Bool) : Option ℚ :=
  match (parseImageParam text field true optional "," ": ").value with
  | some (.num q) => some q
  | _ => none

/-- `remapModelName` (`src/endpoints.ts` 1753-1761): resolve a parsed model
hash against the roster; `undefined` when the hash is unknown or itself
`undefined`. -/
def remapModelName (models : List Model) (modelHash : Option String) :
    Option String :=
  (models.find? (fun m => some m.hash = modelHash)).map (fun m => m.name)

/-- Model of `prompt.replace(/(\n|\r)$/gim, "")`: a line terminator is removed
exactly when it is followed by another line terminator or the end of the
string. -/
def stripTrailingTerm : List Char → List Char
  | [] => []
  | c :: rest =>
    if jsTerm c && (rest.isEmpty || jsTerm (rest.headD 'x')) then
      stripTrailingTerm rest
    else c :: stripTrailingTerm rest

/-- Model of `.replace(/(\n|\r)|Negative prompt:\s/gim, "")`: a left-to-right
scan removing every line terminator and every occurrence of the literal
`Negative prompt:` followed by one whitespace character. -/
def negPromptClean (l : List Char) : List Char :=
  match l with
  | [] => []
  | c :: rest =>
    if jsTerm c then negPromptClean rest
    else if "Negative prompt:".data.isPrefixOf (c :: rest)
        && (jsWs (((c :: rest).drop 16).headD '\x00')
            || jsTerm (((c :: rest).drop 16).headD '\x00')) then
      negPromptClean ((c :: rest).drop 17)
    else c :: negPromptClean rest
termination_by l.length
decreasing_by
  · simp [List.length_cons]
  · simp [List.length_cons]
    omega
  · simp [List.length_cons]

/-- The settings tail of a sidecar text: everything from the first
`"Steps: "` occurrence on (the whole text when absent, matching the
`substring(-1)` clamp). -/
def restParamsOf (imageParams : String) : String :=
  ⟨jsSubstringFrom imageParams.data
    (match subFind imageParams.data "Steps: ".data with
     | some i => (i : Int)
     | none => -1)⟩

/-- `parseImageParams` (`src/endpoints.ts` 1436-1663) over the embedded
fields.  Returns `none` when the required `Size` field is missing (the
`undefined.split` TypeError is caught by the enclosing `try`, which logs and
returns `undefined`). -/
def parseImageParams (dRFS : ℚ) (models : List Model)
    (overrides : Txt2ImgOverrides) (fileName : String)
    (imageParams : String) : Option ImageParams :=
  let text := imageParams.data
  let negPromptEndIndex : Int :=
    match subFind text "Steps: ".data with
    | some i => (i : Int)
    | none => -1
  let nps : Int :=
    match subFind text "Negative prompt: ".data with
    | some i => (i : Int)
    | none => -1
  let negPromptStartIndex := if nps < 0 then negPromptEndIndex else nps
  let prompt : String := ⟨stripTrailingTerm (jsSubstring2 text 0 negPromptStartIndex)⟩
  let negPrompt : String :=
    ⟨negPromptClean (jsSubstring2 text negPromptStartIndex negPromptEndIndex)⟩
  let restParams := restParamsOf imageParams
  let rawModelName := overrides.model <|> ppStr restParams "Model" false
  let modelHash := ppStr restParams "Model hash" false
  let model := remapModelName models modelHash <|> rawModelName
  let cfgScale := overrides.cfgScale <|> ppNum restParams "CFG scale" false
  let clipSkip := overrides.clipSkip <|> ppNum restParams "Clip skip" true
  let hiresDenoisingStrength :=
    overrides.hiresDenoisingStrength
      <|> ppNum restParams "Hires denoising strength" true
  let hiresScale := overrides.hiresScale <|> ppNum restParams "Hires scale" true
  let hiresSteps := overrides.hiresSteps <|> ppNum restParams "Hires steps" true
  let hiresUpscaler0 := ppStr restParams "Hires upscaler" true
  let isUpscaled := hiresUpscaler0.isSome
  let hiresUpscaler := overrides.hiresUpscaler <|> hiresUpscaler0
  let restoreFaces :=
    overrides.restoreFaces.getD (jsIncludes restParams.data "Face restoration".data)
  let restoreFacesStrength := overrides.restoreFacesStrength.getD dRFS
  let sampler := overrides.sampler <|> ppStr restParams "Sampler" false
  let seed := overrides.seed <|> ppNum restParams "Seed" false
  let steps := overrides.steps <|> ppNum restParams "Steps" false
  let subseed := overrides.subseed <|> ppNum restParams "Variation seed" true
  let subseedStrength :=
    overrides.subseedStrength <|> ppNum restParams "Variation seed strength" true
  let vaeHash :=
    (overrides.vae <|> ppStr restParams "\"vae\"" true "\"" ": \"").getD "None"
  let cutoffEnabled :=
    overrides.cutoffEnabled.getD
      (decide (ppStr restParams "Cutoff enabled" true = some "True"))
  let cutoffPadding :=
    overrides.cutoffPadding <|> ppStr restParams "Cutoff padding" true
  let cutoffWeight := overrides.cutoffWeight <|> ppNum restParams "Cutoff weight" true
  let cutoffDisableForNeg :=
    overrides.cutoffDisableForNeg.getD
      (decide (ppStr restParams "Cutoff disable_for_neg" true = some "True"))
  let cutoffStrong :=
    overrides.cutoffStrong.getD
      (decide (ppStr restParams "Cutoff strong" true = some "True"))
  let cutoffInterpolation :=
    overrides.cutoffInterpolation <|> ppStr restParams "Cutoff interpolation" true
  let template :=
    overrides.template <|> ppStr restParams "Template" true "Negative Template"
  let negTemplate :=
    overrides.negTemplate <|> ppStr restParams "Negative Template" true "\r"
  match ppStr restParams "Size" false with
  | none => none
  | some sizeStr =>
    let parts := sizeStr.splitOn "x"
    let width := (parts.get? 0).map (fun d => jsToNumber d.data)
    let height := (parts.get? 1).map (fun d => jsToNumber d.data)
    some {
      cfgScale, clipSkip, cutoffEnabled, cutoffPadding, cutoffWeight,
      cutoffDisableForNeg, cutoffStrong, cutoffInterpolation, fileName,
      height, hiresDenoisingStrength, hiresScale, hiresSteps, hiresUpscaler,
      isUpscaled, model, modelHash, negPrompt, negTemplate, prompt,
      rawParams := imageParams, restoreFaces, restoreFacesStrength, sampler,
      seed, steps, subseed, subseedStrength, template, width, vaeHash }

end SDAuto

namespace SDAuto

/-! ### Defaults and the scalar part of `GenerationQueue.createRequest`
(`src/constants.ts`; `src/endpoints.ts` 1853-1971, extension-script argument
blocks omitted) -/

/-- `DEFAULTS.HIRES_DENOISING_STRENGTH` fallback (`0.3`). -/
def DEFAULT_HIRES_DENOISING_STRENGTH : ℚ := 3 / 10

/-- `DEFAULTS.HIRES_SCALE` fallback (`2`). -/
def DEFAULT_HIRES_SCALE : ℚ := 2

/-- `DEFAULTS.HIRES_UPSCALER` fallback. -/
def DEFAULT_HIRES_UPSCALER : String := "ESRGAN_4x"

/-- `REPROD_DIFF_TOLERANCE` fallback (`0.15`). -/
def REPROD_DIFF_TOLERANCE : ℚ := 15 / 100

/-- The scalar fields of the remote `txt2img`/`img2img` request body built by
`GenerationQueue.createRequest`; `clipSkipSetting` is
`override_settings.CLIP_stop_at_last_layers`. -/
structure Txt2ImgRequest where
  cfg_scale : Option ℚ
  denoising_strength : ℚ
  enable_hr : Bool
  height : Option (Option ℚ)
  hr_scale : ℚ
  hr_steps : Option ℚ
  hr_upscaler : String
  negative_prompt : String
  clipSkipSetting : ℚ
  prompt : String
  restore_faces : Bool
  sampler_name : Option String
  seed : Option ℚ
  steps : Option ℚ
  subseed : ℚ
  subseed_strength : ℚ
  width : Option (Option ℚ)
deriving DecidableEq, Repr

/-- Scalar part of `GenerationQueue.createRequest` (`src/endpoints.ts`
1853-1971). -/
def createRequest (p : ImageParams) : Txt2ImgRequest where
  cfg_scale := p.cfgScale
  denoising_strength := p.hiresDenoisingStrength.getD DEFAULT_HIRES_DENOISING_STRENGTH
  enable_hr := false
  height := p.height
  hr_scale := p.hiresScale.getD DEFAULT_HIRES_SCALE
  hr_steps := p.hiresSteps
  hr_upscaler := p.hiresUpscaler.getD DEFAULT_HIRES_UPSCALER
  negative_prompt := p.negPrompt
  clipSkipSetting := p.clipSkip.getD 1
  prompt := p.prompt
  restore_faces := p.restoreFaces
  sampler_name := p.sampler
  seed := p.seed
  steps := p.steps
  subseed := p.subseed.getD (-1)
  subseed_strength := p.subseedStrength.getD 0
  width := p.width

/-- A complete sidecar text used as concrete input. -/
def exampleSidecar : String :=
  "myprompt\nNegative prompt: bad\nSteps: 20, Sampler: Euler a, CFG scale: 7, Seed: 12345, Size: 512x768, Model hash: abc123, Model: ParsedModel"

/-- C3 counterexample: with the parsed model hash `abc123` present in the
roster (display name `RosterModel`) and the override `model: "OverrideModel"`
defined, the assembled record's model is `RosterModel`, not the override: for
the model field the roster remap of the parsed hash takes precedence over the
override. -/
theorem parseImageParams_model_override_cex :
    (parseImageParams 0 [⟨"abc123", "RosterModel", "p"⟩]
        { model := some "OverrideModel" } "file1" exampleSidecar).map
        (fun r => r.model)
      = some (some "RosterModel")
    ∧ (some (some "RosterModel") : Option (Option String))
        ≠ some (some "OverrideModel") := by
  exact ⟨by decide, by decide⟩

/-- C3 (amended): for every embedded field, an override value takes precedence
over the parsed value, and the system defaults (hires denoising strength /
scale / upscaler at request-build time, restore-faces strength and the `None`
VAE sentinel at assembly time) apply only when both the override and the
parsed value are absent — except for the model field, where the roster remap
of the parsed model hash takes precedence and the override (then the parsed
model name) is only a fallback for an unknown hash. -/
theorem parseImageParams_override_precedence
    (dRFS : ℚ) (models : List Model) (ov : Txt2ImgOverrides)
    (f text : String) (r : ImageParams)
    (h : parseImageParams dRFS models ov f text = some r) :
    r.cfgScale = (ov.cfgScale <|> ppNum (restParamsOf text) "CFG scale" false)
    ∧ r.seed = (ov.seed <|> ppNum (restParamsOf text) "Seed" false)
    ∧ r.steps = (ov.steps <|> ppNum (restParamsOf text) "Steps" false)
    ∧ r.sampler = (ov.sampler <|> ppStr (restParamsOf text) "Sampler" false)
    ∧ r.clipSkip = (ov.clipSkip <|> ppNum (restParamsOf text) "Clip skip" true)
    ∧ r.subseed = (ov.subseed <|> ppNum (restParamsOf text) "Variation seed" true)
    ∧ r.subseedStrength
        = (ov.subseedStrength
            <|> ppNum (restParamsOf text) "Variation seed strength" true)
    ∧ r.hiresDenoisingStrength
        = (ov.hiresDenoisingStrength
            <|> ppNum (restParamsOf text) "Hires denoising strength" true)
    ∧ r.hiresScale = (ov.hiresScale <|> ppNum (restParamsOf text) "Hires scale" true)
    ∧ r.hiresSteps = (ov.hiresSteps <|> ppNum (restParamsOf text) "Hires steps" true)
    ∧ r.hiresUpscaler
        = (ov.hiresUpscaler <|> ppStr (restParamsOf text) "Hires upscaler" true)
    ∧ r.restoreFaces
        = ov.restoreFaces.getD
            (jsIncludes (restParamsOf text).data "Face restoration".data)
    ∧ r.restoreFacesStrength = ov.restoreFacesStrength.getD dRFS
    ∧ r.vaeHash
        = (ov.vae <|> ppStr (restParamsOf text) "\"vae\"" true "\"" ": \"").getD "None"
    ∧ r.template
        = (ov.template <|> ppStr (restParamsOf text) "Template" true "Negative Template")
    ∧ r.negTemplate
        = (ov.negTemplate <|> ppStr (restParamsOf text) "Negative Template" true "\r")
    ∧ r.cutoffEnabled
        = ov.cutoffEnabled.getD
            (decide (ppStr (restParamsOf text) "Cutoff enabled" true = some "True"))
    ∧ r.cutoffPadding
        = (ov.cutoffPadding <|> ppStr (restParamsOf text) "Cutoff padding" true)
    ∧ r.cutoffWeight
        = (ov.cutoffWeight <|> ppNum (restParamsOf text) "Cutoff weight" true)
    ∧ r.cutoffDisableForNeg
        = ov.cutoffDisableForNeg.getD
            (decide (ppStr (restParamsOf text) "Cutoff disable_for_neg" true = some "True"))
    ∧ r.cutoffStrong
        = ov.cutoffStrong.getD
            (decide (ppStr (restParamsOf text) "Cutoff strong" true = some "True"))
    ∧ r.cutoffInterpolation
        = (ov.cutoffInterpolation
            <|> ppStr (restParamsOf text) "Cutoff interpolation" true)
    ∧ r.model
        = (remapModelName models (ppStr (restParamsOf text) "Model hash" false)
            <|> (ov.model <|> ppStr (restParamsOf text) "Model" false))
    ∧ (createRequest r).denoising_strength
        = (ov.hiresDenoisingStrength
            <|> ppNum (restParamsOf text) "Hires denoising strength" true).getD
            DEFAULT_HIRES_DENOISING_STRENGTH
    ∧ (createRequest r).hr_scale
        = (ov.hiresScale <|> ppNum (restParamsOf text) "Hires scale" true).getD
            DEFAULT_HIRES_SCALE
    ∧ (createRequest r).hr_upscaler
        = (ov.hiresUpscaler <|> ppStr (restParamsOf text) "Hires upscaler" true).getD
            DEFAULT_HIRES_UPSCALER := by
  simp only [parseImageParams] at h
  rcases hs : ppStr (restParamsOf text) "Size" false with _ | sizeStr <;> rw [hs] at h
  · exact absurd h (by simp)
  · rw [Option.some.injEq] at h
    subst h
    exact ⟨rfl, rfl, rfl, rfl, rfl, rfl, rfl, rfl, rfl, rfl, rfl, rfl, rfl,
      rfl, rfl, rfl, rfl, rfl, rfl, rfl, rfl, rfl, rfl, rfl, rfl, rfl⟩

/-- Witness for the amended C3 at a concrete input: with only a `seed`
override defined, the assembled record keeps the override seed and the parsed
CFG scale. -/
theorem parseImageParams_override_precedence_witness :
    ∃ r, parseImageParams 0 [⟨"abc123", "RosterModel", "p"⟩]
        { seed := some 999 } "file1" exampleSidecar = some r
      ∧ r.cfgScale = some 7 ∧ r.seed = some 999 := by
  rcases hr : parseImageParams 0 [⟨"abc123", "RosterModel", "p"⟩]
      { seed := some 999 } "file1" exampleSidecar with _ | r
  · exact absurd hr (by decide)
  · have h2 := parseImageParams_override_precedence 0 _ _ _ _ r hr
    exact ⟨r, rfl, h2.1.trans (by decide), h2.2.1.trans (by decide)⟩

end SDAuto

namespace SDAuto

/-! ## C1: `parseAndSortImageParams` (`src/endpoints.ts` 1666-1708)

The sort comparator (lines 1696-1704) compares `model` with `localeCompare`
(modelled as the code-unit lexicographic `LinearOrder String`), then orders a
truthy `vaeHash` before a falsy one, then compares two truthy hashes
lexicographically.  In the source a record whose `model` is `undefined` would
make the comparator throw; the embedding totalises that case with
`Option.getD ""` (see `modelName`). -/

/-- JavaScript truthiness of the record's `vaeHash` string (falsy exactly for
the empty string; `parseImageParams` always defaults it to `"None"`). -/
def vaeTruthy (r : ImageParams) : Bool := r.vaeHash ≠ ""

/-- The comparator's model key (`a.model`, totalised for `undefined`). -/
def modelName (r : ImageParams) : String := r.model.getD ""

/-- Sign model of `String.localeCompare`. -/
def localeCmp (a b : String) : Int :=
  if a < b then -1 else if b < a then 1 else 0

/-- The sort comparator of `parseAndSortImageParams` (lines 1696-1704). -/
def imageParamsCompare (a b : ImageParams) : Int :=
  let modelSort := localeCmp (modelName a) (modelName b)
  if modelSort ≠ 0 then modelSort
  else if vaeTruthy a && !vaeTruthy b then -1
  else if !vaeTruthy a && vaeTruthy b then 1
  else if vaeTruthy a && vaeTruthy b then localeCmp a.vaeHash b.vaeHash
  else 0

/-- The non-strict order induced by the comparator. -/
def paramLE (a b : ImageParams) : Prop := imageParamsCompare a b ≤ 0

instance : DecidableRel paramLE := fun a b => by
  unfold paramLE; infer_instance

theorem localeCmp_le {a b : String} : localeCmp a b ≤ 0 ↔ a ≤ b := by
  unfold localeCmp
  rcases lt_trichotomy a b with h | h | h
  · simp [h, le_of_lt h, not_lt_of_lt h]
  · simp [h]
  · simp [h, not_lt_of_lt h, not_le_of_lt h, ne_of_gt h, lt_asymm h]

theorem localeCmp_eq_zero {a b : String} : localeCmp a b = 0 ↔ a = b := by
  unfold localeCmp
  rcases lt_trichotomy a b with h | h | h
  · simp [h, ne_of_lt h]
  · simp [h]
  · simp [lt_asymm h, h, ne_of_gt h]

theorem localeCmp_neg {a b : String} : localeCmp a b = -1 ↔ a < b := by
  unfold localeCmp
  rcases lt_trichotomy a b with h | h | h
  · simp [h]
  · simp [h, lt_irrefl]
  · simp [lt_asymm h, h]

/-- The VAE rank of the comparator: truthy references come first. -/
def vaeRank (r : ImageParams) : Nat := if vaeTruthy r then 0 else 1

/-- The VAE string key of the comparator. -/
def vaeKey (r : ImageParams) : String := if vaeTruthy r then r.vaeHash else ""

/-- The comparator order as an explicit lexicographic key order. -/
def keyLE (a b : ImageParams) : Prop :=
  modelName a < modelName b
    ∨ (modelName a = modelName b
        ∧ (vaeRank a < vaeRank b
            ∨ (vaeRank a = vaeRank b ∧ vaeKey a ≤ vaeKey b)))

theorem localeCmp_self (a : String) : localeCmp a a = 0 := by
  simp [localeCmp]

theorem paramLE_iff_keyLE {a b : ImageParams} : paramLE a b ↔ keyLE a b := by
  unfold paramLE keyLE imageParamsCompare vaeRank vaeKey
  rcases lt_trichotomy (modelName a) (modelName b) with h | h | h
  · have h1 : localeCmp (modelName a) (modelName b) = -1 := localeCmp_neg.mpr h
    simp [h1, h]
  · cases hva : vaeTruthy a <;> cases hvb : vaeTruthy b <;>
      simp [localeCmp_eq_zero.mpr h, localeCmp_self, h, hva, hvb, localeCmp_le]
  · have h0 : localeCmp (modelName a) (modelName b) = 1 := by
      unfold localeCmp
      simp [lt_asymm h, h]
    have h2 : ¬ modelName a < modelName b := lt_asymm h
    simp [h0, h2, ne_of_gt h]

theorem keyLE_total (a b : ImageParams) : keyLE a b ∨ keyLE b a := by
  unfold keyLE
  rcases lt_trichotomy (modelName a) (modelName b) with h | h | h
  · exact Or.inl (Or.inl h)
  · rcases lt_trichotomy (vaeRank a) (vaeRank b) with h2 | h2 | h2
    · exact Or.inl (Or.inr ⟨h, Or.inl h2⟩)
    · rcases le_total (vaeKey a) (vaeKey b) with h3 | h3
      · exact Or.inl (Or.inr ⟨h, Or.inr ⟨h2, h3⟩⟩)
      · exact Or.inr (Or.inr ⟨h.symm, Or.inr ⟨h2.symm, h3⟩⟩)
    · exact Or.inr (Or.inr ⟨h.symm, Or.inl h2⟩)
  · exact Or.inr (Or.inl h)

theorem keyLE_trans (a b c : ImageParams) :
    keyLE a b → keyLE b c → keyLE a c := by
  unfold keyLE
  rintro (h1 | ⟨h1, h1v⟩) (h2 | ⟨h2, h2v⟩)
  · exact Or.inl (h1.trans h2)
  · exact Or.inl (h2 ▸ h1)
  · exact Or.inl (h1 ▸ h2)
  · refine Or.inr ⟨h1.trans h2, ?_⟩
    rcases h1v with h1v | ⟨h1r, h1k⟩ <;> rcases h2v with h2v | ⟨h2r, h2k⟩
    · exact Or.inl (h1v.trans h2v)
    · exact Or.inl (h2r ▸ h1v)
    · exact Or.inl (h1r ▸ h2v)
    · exact Or.inr ⟨h1r.trans h2r, h1k.trans h2k⟩

/-- `parseAndSortImageParams` (lines 1666-1708): parse every file with its
applicable override set, drop the failures, and sort with the comparator.
`files` carries, for each sidecar, the effective override set, the file name
and the file content; a stable insertion sort stands in for
`Array.prototype.sort` (stable per the ECMAScript specification). -/
def parseAndSortImageParams (dRFS : ℚ) (models : List Model)
    (files : List (Txt2ImgOverrides × String × String)) : List ImageParams :=
  ((files.map (fun e => parseImageParams dRFS models e.1 e.2.1 e.2.2)).filterMap
      id).insertionSort paramLE

/-- C1: the sorter returns exactly the successfully parsed records (a
permutation of the non-`undefined` parse results), sorted by the comparator
order; and that order is: model name ascending as primary key, then — for
equal model names — a record with a truthy (defined) `vaeHash` strictly
before one without, and two truthy hashes compared lexicographically. -/
theorem parseAndSortImageParams_spec (dRFS : ℚ) (models : List Model)
    (files : List (Txt2ImgOverrides × String × String)) :
    (parseAndSortImageParams dRFS models files).Perm
        ((files.map (fun e => parseImageParams dRFS models e.1 e.2.1 e.2.2)).filterMap id)
    ∧ (parseAndSortImageParams dRFS models files).Sorted paramLE
    ∧ (∀ a b : ImageParams, modelName a < modelName b → imageParamsCompare a b = -1)
    ∧ (∀ a b : ImageParams, modelName a = modelName b →
        vaeTruthy a = true → vaeTruthy b = false → imageParamsCompare a b = -1)
    ∧ (∀ a b : ImageParams, modelName a = modelName b →
        vaeTruthy a = true → vaeTruthy b = true →
        imageParamsCompare a b = localeCmp a.vaeHash b.vaeHash) := by
  refine ⟨List.perm_insertionSort paramLE _, ?_, ?_, ?_, ?_⟩
  · haveI : IsTotal ImageParams paramLE :=
      ⟨fun a b => by
        rcases keyLE_total a b with h | h
        · exact Or.inl (paramLE_iff_keyLE.mpr h)
        · exact Or.inr (paramLE_iff_keyLE.mpr h)⟩
    haveI : IsTrans ImageParams paramLE :=
      ⟨fun a b c h1 h2 =>
        paramLE_iff_keyLE.mpr
          (keyLE_trans a b c (paramLE_iff_keyLE.mp h1) (paramLE_iff_keyLE.mp h2))⟩
    exact List.sorted_insertionSort paramLE _
  · intro a b h
    unfold imageParamsCompare
    simp [localeCmp_neg.mpr h]
  · intro a b h hva hvb
    unfold imageParamsCompare
    simp [localeCmp_eq_zero.mpr h, hva, hvb]
  · intro a b h hva hvb
    unfold imageParamsCompare
    simp [localeCmp_eq_zero.mpr h, hva, hvb]

end SDAuto

namespace SDAuto

/-- A minimal record with the given model and `vaeHash`, used to exercise the
comparator at concrete inputs. -/
def mkRec (model : Option String) (vae : String) : ImageParams where
  cfgScale := none
  clipSkip := none
  cutoffEnabled := false
  cutoffPadding := none
  cutoffWeight := none
  cutoffDisableForNeg := false
  cutoffStrong := false
  cutoffInterpolation := none
  fileName := "f"
  height := none
  hiresDenoisingStrength := none
  hiresScale := none
  hiresSteps := none
  hiresUpscaler := none
  isUpscaled := false
  model := model
  modelHash := none
  negPrompt := ""
  negTemplate := none
  prompt := ""
  rawParams := ""
  restoreFaces := false
  restoreFacesStrength := 0
  sampler := none
  seed := none
  steps := none
  subseed := none
  subseedStrength := none
  template := none
  width := none
  vaeHash := vae

/-- Witness for C1 at concrete records: a smaller model name compares `-1`,
and with equal models a truthy `vaeHash` compares `-1` against a falsy one. -/
theorem parseAndSortImageParams_spec_witness :
    imageParamsCompare (mkRec (some "a") "x") (mkRec (some "b") "x") = -1
    ∧ imageParamsCompare (mkRec (some "a") "y") (mkRec (some "a") "") = -1 := by
  have h := parseAndSortImageParams_spec 0 [] []
  refine ⟨h.2.2.1 _ _ ?_, h.2.2.2.1 _ _ (by decide) (by decide) (by decide)⟩
  show ("a" : String) < "b"
  rw [String.lt_iff_toList_lt]
  decide

end SDAuto

namespace SDAuto

/-! ## C6: the reproduction verifier `compareImage` (`src/utils.ts` 300-315)
and the reproducibility classification (`src/endpoints.ts` 2024-2043) -/

/-- An RGBA pixel. -/
abbrev Pixel := Nat × Nat × Nat × Nat

/-- A decoded raw image (after `sharp(...).ensureAlpha().raw()`): dimensions
from the decode metadata plus the pixel buffer. -/
structure RawImage where
  width : Nat
  height : Nat
  data : List Pixel
deriving DecidableEq, Repr

/-- The result record of `compareImage`. -/
structure CompareResult where
  pixelDiff : Nat
  percentDiff : ℚ
deriving DecidableEq, Repr

/-- `compareImage` (`src/utils.ts` 300-315).  The external `pixelmatch`
dependency is abstracted into the per-pixel predicate `differs` (pixelmatch,
at its `threshold: 0.1`, counts the pixels whose perceptual colour delta
exceeds the threshold; any such predicate satisfies `differs p p = false`).
Width and height are taken from the first image, as in the source. -/
def compareImage (differs : Pixel → Pixel → Bool) (img1 img2 : RawImage) :
    CompareResult :=
  let pixelDiff := ((img1.data.zip img2.data).filter (fun p => differs p.1 p.2)).length
  let percentDiff : ℚ := (pixelDiff : ℚ) / ((img1.width : ℚ) * (img1.height : ℚ))
  ⟨pixelDiff, percentDiff⟩

/-- The reproducibility classification of `GenerationQueue.reproduce`
(`src/endpoints.ts` 2032): reproducible exactly when `percentDiff` is
strictly below `REPROD_DIFF_TOLERANCE` (default `0.15`). -/
def classifyReproducible (percentDiff : ℚ) : Bool :=
  percentDiff < REPROD_DIFF_TOLERANCE

theorem zip_self_map {α : Type} (l : List α) :
    l.zip l = l.map (fun a => (a, a)) := by
  induction l with
  | nil => rfl
  | cons a t ih => simp [List.zip_cons_cons, ih, List.map_cons]

/-- C6: `percentDiff` always equals `pixelDiff` divided by the pixel area of
the (first) decoded image; comparing an image with a pixel-identical copy
yields `pixelDiff = 0` and `percentDiff = 0`; and the reproduce-mode
classification is strict comparison against the `0.15` tolerance, so `0.10`
classifies reproducible and `0.20` does not. -/
theorem compareImage_spec (differs : Pixel → Pixel → Bool)
    (img img2 : RawImage) (hdiff : ∀ p, differs p p = false) :
    (compareImage differs img img2).percentDiff
      = ((compareImage differs img img2).pixelDiff : ℚ)
          / ((img.width : ℚ) * (img.height : ℚ))
    ∧ (compareImage differs img img).pixelDiff = 0
    ∧ (compareImage differs img img).percentDiff = 0
    ∧ classifyReproducible (10 / 100) = true
    ∧ classifyReproducible (20 / 100) = false := by
  have hz : ((img.data.zip img.data).filter (fun p => differs p.1 p.2)) = [] := by
    rw [zip_self_map, List.filter_map]
    simp [Function.comp, hdiff]
  refine ⟨rfl, ?_, ?_, ?_, ?_⟩
  · simp [compareImage, hz]
  · simp [compareImage, hz]
  · unfold classifyReproducible REPROD_DIFF_TOLERANCE
    norm_num
  · unfold classifyReproducible REPROD_DIFF_TOLERANCE
    norm_num

/-- Witness for C6 at a concrete 1x1 image compared with itself, with exact
pixel inequality as the difference predicate. -/
theorem compareImage_spec_witness :
    (compareImage (fun p q => decide (p ≠ q)) ⟨1, 1, [(0, 0, 0, 255)]⟩
        ⟨1, 1, [(0, 0, 0, 255)]⟩).pixelDiff = 0
    ∧ (compareImage (fun p q => decide (p ≠ q)) ⟨1, 1, [(0, 0, 0, 255)]⟩
        ⟨1, 1, [(0, 0, 0, 255)]⟩).percentDiff = 0 := by
  have h := compareImage_spec (fun p q => decide (p ≠ q))
    ⟨1, 1, [(0, 0, 0, 255)]⟩ ⟨1, 1, [(0, 0, 0, 255)]⟩ (fun p => by simp)
  exact ⟨h.2.1, h.2.2.1⟩

end SDAuto

namespace SDAuto

/-! ## C5: `setActiveVAE` (`src/endpoints.ts` 1777-1785) and
`switchVAEIfNeeded` (`src/endpoints.ts` 2138-2167) -/

/-- `setActiveVAE`: the documented triple-call workaround.  The returned list
is the sequence of `sd_vae` payloads posted to `POST options`; `apiOk i`
says whether the `i`-th call of this invocation succeeds (each `if
(!res.success) return;` stops the sequence early). -/
def setActiveVAE (apiOk : Nat → Bool) (vaeName : String) : List String :=
  if apiOk 0 then
    if apiOk 1 then [vaeName, "None", vaeName]
    else [vaeName, "None"]
  else [vaeName]

/-- `switchVAEIfNeeded`: returns the updated `activeVAEHash` session field
and the `sd_vae` payloads posted. -/
def switchVAEIfNeeded (apiOk : Nat → Bool) (activeVAEHash : String)
    (vaes : List VAE) (vaeHash : String) : String × List String :=
  if vaeHash ≠ activeVAEHash then
    if vaeHash = "Automatic" ∨ vaeHash = "None" then
      (vaeHash, setActiveVAE apiOk vaeHash)
    else
      match vaes.find? (fun v => v.hash = vaeHash) with
      | none => ("None", setActiveVAE apiOk "None")
      | some vae => (vae.hash, setActiveVAE apiOk vae.fileName)
  else (activeVAEHash, [])

/-- C5: when the requested reference equals the active one, no switch call is
made; otherwise a sentinel (`"None"`/`"Automatic"`) is switched to directly,
a hash found in the roster is switched to via its file name, and an unknown
hash falls back to `"None"`; every switch is the exact three-call sequence
target, `"None"`, target (all calls succeeding), and the session field is
updated to the respective resolved value. -/
theorem switchVAEIfNeeded_spec (apiOk : Nat → Bool)
    (hok : ∀ n, apiOk n = true) (active vaeHash : String) (vaes : List VAE) :
    (vaeHash = active →
      switchVAEIfNeeded apiOk active vaes vaeHash = (active, []))
    ∧ (vaeHash ≠ active → (vaeHash = "Automatic" ∨ vaeHash = "None") →
        switchVAEIfNeeded apiOk active vaes vaeHash
          = (vaeHash, [vaeHash, "None", vaeHash]))
    ∧ (vaeHash ≠ active → ¬(vaeHash = "Automatic" ∨ vaeHash = "None") →
        vaes.find? (fun v => v.hash = vaeHash) = none →
        switchVAEIfNeeded apiOk active vaes vaeHash
          = ("None", ["None", "None", "None"]))
    ∧ (∀ vae, vaeHash ≠ active → ¬(vaeHash = "Automatic" ∨ vaeHash = "None") →
        vaes.find? (fun v => v.hash = vaeHash) = some vae →
        switchVAEIfNeeded apiOk active vaes vaeHash
          = (vae.hash, [vae.fileName, "None", vae.fileName])) := by
  have hset : ∀ v, setActiveVAE apiOk v = [v, "None", v] := by
    intro v
    simp [setActiveVAE, hok]
  refine ⟨fun h => ?_, fun h hs => ?_, fun h hs hf => ?_, fun vae h hs hf => ?_⟩
  · simp [switchVAEIfNeeded, h]
  · simp [switchVAEIfNeeded, h, hs, hset]
  · simp [switchVAEIfNeeded, h, hs, hf, hset]
  · simp [switchVAEIfNeeded, h, hs, hf, hset]

/-- Witness for C5 at concrete inputs: an unknown hash falls back to the
`"None"` sentinel with the triple call, and a known hash switches via its
file name with the triple call. -/
theorem switchVAEIfNeeded_spec_witness :
    switchVAEIfNeeded (fun _ => true) "abc" [⟨"vfile", "vhash"⟩] "zzz"
        = ("None", ["None", "None", "None"])
    ∧ switchVAEIfNeeded (fun _ => true) "abc" [⟨"vfile", "vhash"⟩] "vhash"
        = ("vhash", ["vfile", "None", "vfile"]) := by
  refine ⟨(switchVAEIfNeeded_spec (fun _ => true) (fun _ => rfl) "abc" "zzz"
      [⟨"vfile", "vhash"⟩]).2.2.1 (by decide) (by decide) (by decide), ?_⟩
  exact (switchVAEIfNeeded_spec (fun _ => true) (fun _ => rfl) "abc" "vhash"
      [⟨"vfile", "vhash"⟩]).2.2.2 ⟨"vfile", "vhash"⟩ (by decide) (by decide)
      (by decide)

end SDAuto

namespace SDAuto

/-! ## C4 and C2: `switchModelIfNeeded` (`src/endpoints.ts` 2125-2136) and
the per-item loop of `generateImages` (`src/endpoints.ts` 2237-2313)

The queue run is modelled as a left fold over the sorted item list.  Each
item executes the body of the `GenQueue.add` callback: image-existence check,
model switch, VAE switch, the mode call (`reproduce`/`upscale`, which catch
their own errors and never throw outward), counter increment and — on the
last increment — the `done` emission.  The `try`/`catch` around the body is
explicit: a throw before the increment leaves the counter untouched. -/

/-- Observable events of a queue run, in order: an `sd_model_checkpoint`
post, an `sd_vae` post, the mode call for a file, the `done` emission, a
caught-and-logged item error. -/
inductive QEvent where
  | modelSwitch (name : String)
  | vaePost (v : String)
  | generate (file : String)
  | runDone
  | errorLogged
deriving DecidableEq, Repr

/-- The per-item inputs consumed by the queue loop. -/
structure QItem where
  fileName : String
  model : String
  vaeHash : String
deriving DecidableEq, Repr

/-- The queue-run state: the `GenerationQueue` session fields, the completion
counter, and the event trace. -/
structure QState where
  activeModel : String
  activeVAE : String
  completed : Nat
  events : List QEvent
deriving DecidableEq, Repr

/-- `switchModelIfNeeded` (`src/endpoints.ts` 2125-2136): issue a switch only
when the item's model differs from the active one, throwing (an `Except`
error) when the model is missing from the roster; otherwise return the new
active model and the posted switch calls. -/
def switchModelIfNeeded (activeModel : String) (models : List Model)
    (modelName : String) : Except String (String × List QEvent) :=
  if modelName ≠ activeModel then
    if ¬ (models.map (fun m => m.name)).contains modelName then
      .error "Model does not exist. Skipping."
    else
      .ok (modelName, [.modelSwitch modelName])
  else .ok (activeModel, [])

/-- One iteration of the `GenQueue.add` callback in `generateImages`
(`src/endpoints.ts` 2261-2308).  All remote calls succeed (the failure
handling inside `reproduce`/`upscale` is internal to them). -/
def processItem (models : List Model) (vaes : List VAE)
    (imageFileNames : List String) (totalCount : Nat) (st : QState)
    (item : QItem) : QState :=
  if ¬ imageFileNames.contains item.fileName then
    { st with events := st.events ++ [.errorLogged] }
  else
    match switchModelIfNeeded st.activeModel models item.model with
    | .error _ => { st with events := st.events ++ [.errorLogged] }
    | .ok (newActiveModel, modelEvents) =>
      let vaeStep := switchVAEIfNeeded (fun _ => true) st.activeVAE vaes item.vaeHash
      let completed := st.completed + 1
      { activeModel := newActiveModel
        activeVAE := vaeStep.1
        completed := completed
        events := st.events ++ modelEvents
          ++ vaeStep.2.map (fun v => .vaePost v)
          ++ [.generate item.fileName]
          ++ (if completed = totalCount then [.runDone] else []) }

/-- The whole `generateImages` run over an already sorted item list, starting
from the session state read from the remote service (`activeModel`,
`activeVAE`); `totalCount = items.length`, with the immediate `done`
emission for an empty run. -/
def generateImagesRun (models : List Model) (vaes : List VAE)
    (imageFileNames : List String) (activeModel activeVAE : String)
    (items : List QItem) : QState :=
  let totalCount := items.length
  let st0 : QState :=
    { activeModel := activeModel, activeVAE := activeVAE, completed := 0,
      events := if totalCount = 0 then [.runDone] else [] }
  items.foldl (processItem models vaes imageFileNames totalCount) st0

/-- C4: a model-switch call is issued for an item exactly when its model
differs from the session's active model (an unknown model instead fails only
that item), the session state is updated after the switch; and a run with
initial active model `A` and items `[A, A, B]` posts exactly one switch,
between the second and third mode calls. -/
theorem switchModelIfNeeded_spec (activeModel : String) (models : List Model)
    (modelName : String) :
    (modelName = activeModel →
      switchModelIfNeeded activeModel models modelName = .ok (activeModel, []))
    ∧ (modelName ≠ activeModel →
        (models.map (fun m => m.name)).contains modelName = true →
        switchModelIfNeeded activeModel models modelName
          = .ok (modelName, [.modelSwitch modelName]))
    ∧ (modelName ≠ activeModel →
        (models.map (fun m => m.name)).contains modelName = false →
        switchModelIfNeeded activeModel models modelName
          = .error "Model does not exist. Skipping.")
    ∧ (∀ (A B f1 f2 f3 hA hB pA pB V : String), A ≠ B →
        (generateImagesRun [⟨hA, A, pA⟩, ⟨hB, B, pB⟩] [] [f1, f2, f3] A V
            [⟨f1, A, V⟩, ⟨f2, A, V⟩, ⟨f3, B, V⟩]).events
          = [.generate f1, .generate f2, .modelSwitch B, .generate f3,
             .runDone]) := by
  refine ⟨fun h => ?_, fun h hc => ?_, fun h hc => ?_, fun A B f1 f2 f3 hA hB pA pB V hAB => ?_⟩
  · simp [switchModelIfNeeded, h]
  · simp only [switchModelIfNeeded, h, ne_eq, not_false_eq_true, if_true, hc,
      Bool.not_true, Bool.false_eq_true, ite_false, ite_true]
    simp [hc]
  · simp only [switchModelIfNeeded, h, ne_eq, not_false_eq_true, if_true, hc,
      Bool.not_false, ite_true]
    simp [hc]
  · simp [generateImagesRun, processItem, switchModelIfNeeded,
      switchVAEIfNeeded, hAB, Ne.symm hAB, List.contains_cons]

/-- Witness for C4 at concrete names: the `[A, A, B]` run posts exactly one
model switch, between the second and third item. -/
theorem switchModelIfNeeded_spec_witness :
    (generateImagesRun [⟨"h1", "A", "p1"⟩, ⟨"h2", "B", "p2"⟩] []
        ["f1", "f2", "f3"] "A" "None"
        [⟨"f1", "A", "None"⟩, ⟨"f2", "A", "None"⟩, ⟨"f3", "B", "None"⟩]).events
      = [.generate "f1", .generate "f2", .modelSwitch "B", .generate "f3",
         .runDone] :=
  (switchModelIfNeeded_spec "A" [] "A").2.2.2 "A" "B" "f1" "f2" "f3" "h1" "h2"
    "p1" "p2" "None" (by decide)

/-- C2 (divergence witness): in a run with two items, the first of which
fails at the model-switch step (model `B` absent from the roster), the
failure is caught and logged at item level and the run proceeds to the
second item — but the completion counter ends at `1`, not `2`, and the
`done` signal is never emitted. -/
theorem generateImages_failedItem_no_completion :
    (generateImagesRun [⟨"hA", "A", "pA"⟩] [] ["f1", "f2"] "A" "None"
        [⟨"f1", "B", "None"⟩, ⟨"f2", "A", "None"⟩]).events
      = [.errorLogged, .generate "f2"]
    ∧ (generateImagesRun [⟨"hA", "A", "pA"⟩] [] ["f1", "f2"] "A" "None"
        [⟨"f1", "B", "None"⟩, ⟨"f2", "A", "None"⟩]).completed = 1
    ∧ QEvent.runDone ∉
        (generateImagesRun [⟨"hA", "A", "pA"⟩] [] ["f1", "f2"] "A" "None"
          [⟨"f1", "B", "None"⟩, ⟨"f2", "A", "None"⟩]).events := by
  refine ⟨by decide, by decide, by decide⟩

end SDAuto

namespace SDAuto

/-! ## C10: the `PromiseQueue` chaining discipline (`src/utils.ts` 38-50)

`add(fn)` chains `this.queue = this.queue.then(fn).then(resolve).catch(reject)`.
The promise expressions this builds are modelled syntactically and evaluated
denotationally: task `i` has the eventual outcome `env i` (`Except` error =
rejection); `.then(fn)` runs the task only when its argument promise is
fulfilled and otherwise passes the rejection through; the trailing
`.then(resolve).catch(reject)` delivers the outcome to the promise returned
by `add` and — because `reject` is an ordinary handler returning normally —
leaves the stored chain fulfilled either way.  Evaluation also returns the
trace of task identifiers in execution order; a task appears in the trace
exactly when its function is invoked, and tasks are atomic, so trace order is
execution order (one task fully settles before the next starts). -/

/-- Promise expressions reachable from the `PromiseQueue` code:
`Promise.resolve()` (the initial queue), `.then(fn)` for the added task
`id`, and the `.then(resolve).catch(reject)` handler pair. -/
inductive PExpr where
  | root
  | task (id : Nat) (p : PExpr)
  | handled (p : PExpr)
deriving DecidableEq, Repr

/-- Denotational evaluation: the settled outcome of the expression plus the
execution trace of the task functions that ran.  `env` maps a task to the
outcome of running its function. -/
def peval (env : Nat → Except String Unit) : PExpr → Except String Unit × List Nat
  | .root => (.ok (), [])
  | .task id p =>
    match peval env p with
    | (.ok _, tr) => (env id, tr ++ [id])
    | (.error e, tr) => (.error e, tr)
  | .handled p => (.ok (), (peval env p).2)

/-- The stored `this.queue` after `add`-ing the tasks in order (the source
folds `handled ∘ task i` over the initial resolved promise). -/
def queueChain (tasks : List Nat) : PExpr :=
  tasks.foldl (fun p id => .handled (.task id p)) .root

/-- The outcome delivered to the promise returned by the `i`-th `add` call
(0-based): the settled result of `queue.then(fn_i)` — the part of the chain
before that call's own `.then(resolve).catch(reject)` handler pair, whose
rejection branch rejects the returned promise. -/
def addOutcome (env : Nat → Except String Unit) (tasks : List Nat) (i : Nat) :
    Option (Except String Unit) :=
  (tasks.get? i).map
    (fun id => (peval env (.task id (queueChain (tasks.take i)))).1)

theorem peval_handled_trace (env : Nat → Except String Unit) (p : PExpr) :
    peval env (.handled p) = (.ok (), (peval env p).2) := rfl

theorem queueChain_append (tasks : List Nat) (id : Nat) :
    queueChain (tasks ++ [id]) = .handled (.task id (queueChain tasks)) := by
  simp [queueChain, List.foldl_append]

/-- The chain stored in `this.queue` always settles fulfilled, and its trace
is exactly the added task list in order. -/
theorem queueChain_eval (env : Nat → Except String Unit) (tasks : List Nat) :
    peval env (queueChain tasks) = (.ok (), tasks) := by
  induction tasks using List.reverseRecOn with
  | nil => rfl
  | append_singleton pre id ih =>
    rw [queueChain_append]
    rcases henv : env id with e | u <;>
      simp [peval, ih, henv]

/-- C10: for every environment of task outcomes and every sequence of added
tasks, the tasks execute exactly once each, in the order they were added
(the execution trace equals the task list); a task that rejects does not
stop any later task (the stored chain settles fulfilled after every prefix,
so the next task still runs); and each `add` call's returned promise
receives exactly its own task's outcome, including rejections. -/
theorem promiseQueue_spec (env : Nat → Except String Unit) (tasks : List Nat) :
    (peval env (queueChain tasks)).2 = tasks
    ∧ (peval env (queueChain tasks)).1 = .ok ()
    ∧ (∀ i id, tasks.get? i = some id →
        addOutcome env tasks i = some (env id)) := by
  refine ⟨by rw [queueChain_eval], by rw [queueChain_eval], ?_⟩
  intro i id hi
  unfold addOutcome
  rw [hi]
  simp [peval, queueChain_eval]

/-- Witness for C10 at a concrete run: tasks `[0, 1, 2]` where task `1`
rejects still execute in order, the stored chain stays usable, and the
second `add` call receives the rejection. -/
theorem promiseQueue_spec_witness :
    (peval (fun n => if n = 1 then .error "boom" else .ok ())
        (queueChain [0, 1, 2])).2 = [0, 1, 2]
    ∧ addOutcome (fun n => if n = 1 then .error "boom" else .ok ())
        [0, 1, 2] 1 = some (.error "boom") := by
  refine ⟨(promiseQueue_spec _ [0, 1, 2]).1, ?_⟩
  have h := (promiseQueue_spec
      (fun n => if n = 1 then .error "boom" else .ok ()) [0, 1, 2]).2.2 1 1
      (by decide)
  rw [h]
  rfl

end SDAuto

namespace SDAuto

/-! ## C9: `dotKeysToTree` (`src/utils.ts` 419-424)

`dotKeysToTree` folds over `Object.entries(obj)`; for each entry it splits
the key on `"."`, pops the last segment, navigates/creates nested objects
with `obj[k] ||= {}` and assigns the value at the last segment.  JSON values
are modelled by `JVal`; the `Except` error stands for the `TypeError` raised
(in strict mode) when the walk reaches a *truthy* primitive, whose property
write must fail — a falsy primitive is replaced by `{}` by `||=`.  Property
assignment keeps the position of an existing key and appends a new key, as
JavaScript objects do. -/

/-- A JSON primitive. -/
inductive JPrim where
  | num (q : ℚ)
  | str (s : String)
  | bool (b : Bool)
  | null
deriving DecidableEq, Repr

/-- JavaScript truthiness of a primitive (NaN, unrepresentable in `ℚ`, is not
modelled). -/
def JPrim.truthy : JPrim → Bool
  | .num q => q ≠ 0
  | .str s => s ≠ ""
  | .bool b => b
  | .null => false

/-- A JSON value: primitive or object (ordered field list). -/
inductive JVal where
  | prim (p : JPrim)
  | obj (fields : List (String × JVal))

/-- Property read on an object. -/
def objGet (o : List (String × JVal)) (k : String) : Option JVal :=
  (o.find? (fun e => e.1 = k)).map (fun e => e.2)

/-- Property write on an object: replace in place, or append a new key. -/
def objSet (o : List (String × JVal)) (k : String) (v : JVal) :
    List (String × JVal) :=
  if o.any (fun e => e.1 = k) then
    o.map (fun e => if e.1 = k then (k, v) else e)
  else o ++ [(k, v)]

/-- JavaScript `key.split(".")` (single-character separator). -/
def splitDotAux : List Char → List Char → List String
  | [], cur => [⟨cur.reverse⟩]
  | c :: rest, cur =>
    if c = '.' then ⟨cur.reverse⟩ :: splitDotAux rest []
    else splitDotAux rest (c :: cur)

/-- JavaScript `key.split(".")`. -/
def splitDot (s : String) : List String := splitDotAux s.data []

/-- The `keys.reduce((obj, k) => (obj[k] ||= {}), acc)[lastKey] = value` walk:
navigate the leading segments, replacing an absent or falsy-primitive slot by
a fresh object, failing on a truthy primitive (whose property write raises in
strict mode), and assign the value at the last segment. -/
def navSet : List String → List (String × JVal) → String → JVal →
    Except Unit (List (String × JVal))
  | [], o, lastKey, v => .ok (objSet o lastKey v)
  | k :: rest, o, lastKey, v =>
    match objGet o k with
    | some (.obj o2) =>
      (navSet rest o2 lastKey v).map (fun o2a => objSet o k (.obj o2a))
    | some (.prim p) =>
      if p.truthy then .error ()
      else (navSet rest [] lastKey v).map (fun o2a => objSet o k (.obj o2a))
    | none => (navSet rest [] lastKey v).map (fun o2a => objSet o k (.obj o2a))

/-- `dotKeysToTree` (`src/utils.ts` 419-424). -/
def dotKeysToTree (entries : List (String × JVal)) :
    Except Unit (List (String × JVal)) :=
  entries.foldlM
    (fun acc e =>
      navSet (splitDot e.1).dropLast acc ((splitDot e.1).getLastD "") e.2)
    []

/-- Lookup along a (nonempty) segment path. -/
def pathGet (o : List (String × JVal)) : List String → Option JVal
  | [] => none
  | k :: rest =>
    match objGet o k, rest with
    | some v2, [] => some v2
    | some (.obj o2), _ :: _ => pathGet o2 rest
    | _, _ => none

/-- C9 counterexample: in an object that also contains the conflicting key
`"a"`, the entry `"a.b.c": 5` does *not* survive as `{a:{b:{c:5}}}` — the
later `"a"` entry overwrites the whole nested structure, so the claim fails
as stated for objects with such a key. -/
theorem dotKeysToTree_conflict_cex :
    dotKeysToTree [("a.b.c", .prim (.num 5)), ("a", .prim (.num 7))]
        = .ok [("a", .prim (.num 7))]
    ∧ pathGet [("a", .prim (.num 7))] ["a", "b", "c"] = none := by
  exact ⟨rfl, rfl⟩

end SDAuto


namespace SDAuto

/-! ### Structural lemmas for the `dotKeysToTree` walk -/

theorem find?_map_replace_self (t : List (String × JVal)) (k : String) (v : JVal)
    (hAny : t.any (fun e => e.1 = k) = true) :
    (t.map (fun e => if e.1 = k then (k, v) else e)).find? (fun e => e.1 = k)
      = some (k, v) := by
  induction t with
  | nil => simp at hAny
  | cons e t ih =>
    by_cases he : e.1 = k
    · simp [List.map_cons, he, List.find?_cons_of_pos]
    · have h2 : t.any (fun e => e.1 = k) = true := by
        simpa [List.any_cons, he] using hAny
      simpa [List.map_cons, he, List.find?_cons_of_neg] using ih h2

theorem find?_append_self (o : List (String × JVal)) (k : String) (v : JVal)
    (hAny : o.any (fun e => e.1 = k) = false) :
    (o ++ [(k, v)]).find? (fun e => e.1 = k) = some (k, v) := by
  induction o with
  | nil => simp
  | cons e t ih =>
    rw [List.any_cons] at hAny
    have he : (e.1 = k) = False := by
      simp only [Bool.or_eq_false_iff] at hAny
      simpa using hAny.1
    have h2 : t.any (fun e => e.1 = k) = false := by
      simp only [Bool.or_eq_false_iff] at hAny
      exact hAny.2
    simpa [List.cons_append, he, List.find?_cons_of_neg] using ih h2

theorem find?_map_replace_ne (t : List (String × JVal)) (k k2 : String) (v : JVal)
    (h : k2 ≠ k) :
    (t.map (fun e => if e.1 = k then (k, v) else e)).find? (fun e => e.1 = k2)
      = t.find? (fun e => e.1 = k2) := by
  induction t with
  | nil => rfl
  | cons e t ih =>
    by_cases he : e.1 = k
    · rw [List.map_cons, if_pos he,
        List.find?_cons_of_neg _ (by simp [Ne.symm h]),
        List.find?_cons_of_neg _ (by simp [he, Ne.symm h])]
      exact ih
    · by_cases he2 : e.1 = k2
      · rw [List.map_cons, if_neg he,
          List.find?_cons_of_pos _ (by simp [he2]),
          List.find?_cons_of_pos _ (by simp [he2])]
      · rw [List.map_cons, if_neg he,
          List.find?_cons_of_neg _ (by simp [he2]),
          List.find?_cons_of_neg _ (by simp [he2])]
        exact ih

theorem find?_append_ne (o : List (String × JVal)) (k k2 : String) (v : JVal)
    (h : k2 ≠ k) :
    (o ++ [(k, v)]).find? (fun e => e.1 = k2) = o.find? (fun e => e.1 = k2) := by
  induction o with
  | nil => simp [Ne.symm h]
  | cons e t ih =>
    by_cases he2 : e.1 = k2
    · simp [List.find?_cons_of_pos, he2]
    · simpa [List.cons_append, List.find?_cons_of_neg, he2] using ih

theorem objGet_objSet_self (o : List (String × JVal)) (k : String) (v : JVal) :
    objGet (objSet o k v) k = some v := by
  unfold objSet objGet
  split
  case isTrue hAny =>
    rw [find?_map_replace_self o k v hAny]
    rfl
  case isFalse hAny =>
    rw [find?_append_self o k v (by rwa [Bool.not_eq_true] at hAny)]
    rfl

theorem objGet_objSet_ne (o : List (String × JVal)) (k k2 : String) (v : JVal)
    (h : k2 ≠ k) : objGet (objSet o k v) k2 = objGet o k2 := by
  unfold objSet objGet
  split
  case isTrue hAny => rw [find?_map_replace_ne o k k2 v h]
  case isFalse hAny => rw [find?_append_ne o k k2 v h]

theorem pathGet_nil (q : List String) : pathGet [] q = none := by
  cases q with
  | nil => rfl
  | cons k rest => cases rest <;> simp [pathGet, objGet]

theorem pathGet_cons_obj {o : List (String × JVal)} {k : String}
    {o2 : List (String × JVal)} (hk : objGet o k = some (.obj o2))
    {q : List String} (hq : q ≠ []) : pathGet o (k :: q) = pathGet o2 q := by
  cases q with
  | nil => exact absurd rfl hq
  | cons j rest => simp [pathGet, hk]

theorem pathGet_cons_not_obj {o : List (String × JVal)} {k : String}
    (hk : ∀ o3, objGet o k ≠ some (.obj o3))
    {q : List String} (hq : q ≠ []) : pathGet o (k :: q) = none := by
  cases q with
  | nil => exact absurd rfl hq
  | cons j rest =>
    cases hv : objGet o k with
    | none => simp [pathGet, hv]
    | some val =>
      cases val with
      | prim p => simp [pathGet, hv]
      | obj o3 => exact absurd hv (hk o3)

theorem pathGet_cons_single {o : List (String × JVal)} {k : String} :
    pathGet o [k] = objGet o k := by
  cases hv : objGet o k with
  | none => simp [pathGet, hv]
  | some val => simp [pathGet, hv]

theorem pathGet_objGet_congr {o1 o2 : List (String × JVal)} {j : String}
    (h : objGet o1 j = objGet o2 j) (q : List String) :
    pathGet o1 (j :: q) = pathGet o2 (j :: q) := by
  cases q with
  | nil => rw [pathGet_cons_single, pathGet_cons_single, h]
  | cons j2 rest => simp [pathGet, h]

/-- The fresh nested chain created by navigating absent keys. -/
def chainObj : List String → String → JVal → List (String × JVal)
  | [], lastKey, v => [(lastKey, v)]
  | k :: rest, lastKey, v => [(k, .obj (chainObj rest lastKey v))]

theorem navSet_nil_obj (pre : List String) (last : String) (v : JVal) :
    navSet pre [] last v = .ok (chainObj pre last v) := by
  induction pre with
  | nil => rfl
  | cons k rest ih => simp [navSet, objGet, ih, Except.map, chainObj, objSet]

theorem pathGet_chainObj (pre : List String) (last : String) (v : JVal) :
    pathGet (chainObj pre last v) (pre ++ [last]) = some v := by
  induction pre with
  | nil => simp [chainObj, pathGet_cons_single, objGet]
  | cons k rest ih =>
    have hk : objGet (chainObj (k :: rest) last v) k
        = some (.obj (chainObj rest last v)) := by
      simp [chainObj, objGet]
    rw [List.cons_append, pathGet_cons_obj hk (by simp), ih]

theorem pathGet_chainObj_ne (pre : List String) (last : String) (v : JVal)
    (q : List String) (hq : q ≠ []) (h1 : ¬ q <+: pre ++ [last])
    (h2 : ¬ (pre ++ [last]) <+: q) :
    pathGet (chainObj pre last v) q = none := by
  induction pre generalizing q with
  | nil =>
    rcases q with _ | ⟨j, q2⟩
    · exact absurd rfl hq
    · by_cases hj : j = last
      · subst hj
        exact absurd ⟨q2, rfl⟩ h2
      · rcases q2 with _ | ⟨j2, q3⟩
        · rw [pathGet_cons_single]
          simp [chainObj, objGet, Ne.symm hj]
        · refine pathGet_cons_not_obj (fun o3 => ?_) (by simp)
          simp [chainObj, objGet, Ne.symm hj]
  | cons k rest ih =>
    rcases q with _ | ⟨j, q2⟩
    · exact absurd rfl hq
    · by_cases hj : j = k
      · subst hj
        rcases q2 with _ | ⟨j2, q3⟩
        · exact absurd ⟨rest ++ [last], rfl⟩ h1
        · have hk : objGet (chainObj (j :: rest) last v) j
              = some (.obj (chainObj rest last v)) := by
            simp [chainObj, objGet]
          rw [pathGet_cons_obj hk (by simp)]
          refine ih (j2 :: q3) (by simp) ?_ ?_
          · intro hc
            exact h1 (List.cons_prefix_cons.mpr ⟨rfl, hc⟩)
          · intro hc
            exact h2 (List.cons_prefix_cons.mpr ⟨rfl, hc⟩)
      · rcases q2 with _ | ⟨j2, q3⟩
        · rw [pathGet_cons_single]
          simp [chainObj, objGet, Ne.symm hj]
        · refine pathGet_cons_not_obj (fun o3 => ?_) (by simp)
          simp [chainObj, objGet, Ne.symm hj]

end SDAuto

namespace SDAuto

/-- Inversion of one navigation step of `navSet`. -/
theorem navSet_cons_inv {k : String} {rest : List String}
    {o : List (String × JVal)} {last : String} {v : JVal}
    {oa : List (String × JVal)}
    (h : navSet (k :: rest) o last v = .ok oa) :
    ∃ o2b o2a, navSet rest o2b last v = .ok o2a
      ∧ oa = objSet o k (.obj o2a)
      ∧ (objGet o k = some (.obj o2b)
          ∨ (o2b = [] ∧ ∀ o3, objGet o k ≠ some (.obj o3))) := by
  unfold navSet at h
  split at h
  · rename_i o2 hk
    cases hrec : navSet rest o2 last v with
    | error e => rw [hrec] at h; exact absurd h (by simp [Except.map])
    | ok o2a =>
      rw [hrec] at h
      simp only [Except.map, Except.ok.injEq] at h
      exact ⟨o2, o2a, hrec, h.symm, Or.inl hk⟩
  · rename_i p hk
    split at h
    · exact absurd h (by simp)
    · cases hrec : navSet rest [] last v with
      | error e => rw [hrec] at h; exact absurd h (by simp [Except.map])
      | ok o2a =>
        rw [hrec] at h
        simp only [Except.map, Except.ok.injEq] at h
        exact ⟨[], o2a, hrec, h.symm, Or.inr ⟨rfl, by simp [hk]⟩⟩
  · rename_i hk
    cases hrec : navSet rest [] last v with
    | error e => rw [hrec] at h; exact absurd h (by simp [Except.map])
    | ok o2a =>
      rw [hrec] at h
      simp only [Except.map, Except.ok.injEq] at h
      exact ⟨[], o2a, hrec, h.symm, Or.inr ⟨rfl, by simp [hk]⟩⟩

/-- Success of the walk: no truthy primitive sits at any nonempty prefix of
the navigation path. -/
theorem navSet_ok (pre : List String) (o : List (String × JVal))
    (last : String) (v : JVal)
    (h : ∀ q p2, q ≠ [] → q <+: pre → pathGet o q = some (.prim p2) →
      p2.truthy = false) :
    ∃ oa, navSet pre o last v = .ok oa := by
  induction pre generalizing o with
  | nil => exact ⟨_, rfl⟩
  | cons k rest ih =>
    have hfresh : ∃ oa2, navSet rest [] last v = .ok oa2 := by
      refine ih [] (fun q p2 hq hpre hpg => ?_)
      rw [pathGet_nil] at hpg
      simp at hpg
    cases hk : objGet o k with
    | none =>
      obtain ⟨oa2, hoa2⟩ := hfresh
      exact ⟨objSet o k (.obj oa2), by simp [navSet, hk, hoa2, Except.map]⟩
    | some val =>
      cases val with
      | prim p =>
        have hp : p.truthy = false := by
          refine h [k] p (by simp) ⟨rest, rfl⟩ ?_
          rw [pathGet_cons_single, hk]
        obtain ⟨oa2, hoa2⟩ := hfresh
        exact ⟨objSet o k (.obj oa2), by simp [navSet, hk, hp, hoa2, Except.map]⟩
      | obj o2 =>
        obtain ⟨oa2, hoa2⟩ := ih o2 (fun q p2 hq hpre hpg => by
          refine h (k :: q) p2 (by simp) (List.cons_prefix_cons.mpr ⟨rfl, hpre⟩) ?_
          rw [pathGet_cons_obj hk hq, hpg])
        exact ⟨objSet o k (.obj oa2), by simp [navSet, hk, hoa2, Except.map]⟩

/-- After a successful walk, the value sits at the full path. -/
theorem navSet_target (pre : List String) (o : List (String × JVal))
    (last : String) (v : JVal) (oa : List (String × JVal))
    (h : navSet pre o last v = .ok oa) :
    pathGet oa (pre ++ [last]) = some v := by
  induction pre generalizing o oa with
  | nil =>
    simp only [navSet, Except.ok.injEq] at h
    subst h
    rw [List.nil_append, pathGet_cons_single, objGet_objSet_self]
  | cons k rest ih =>
    obtain ⟨o2b, o2a, hrec, hoa, _⟩ := navSet_cons_inv h
    subst hoa
    rw [List.cons_append,
      pathGet_cons_obj (objGet_objSet_self o k (.obj o2a)) (by simp)]
    exact ih o2b o2a hrec

/-- Frame rule: paths that neither extend nor are extended by the written
path keep their value. -/
theorem navSet_frame (pre : List String) (o : List (String × JVal))
    (last : String) (v : JVal) (oa : List (String × JVal))
    (h : navSet pre o last v = .ok oa) (q : List String) (hq : q ≠ [])
    (h1 : ¬ q <+: pre ++ [last]) (h2 : ¬ (pre ++ [last]) <+: q) :
    pathGet oa q = pathGet o q := by
  induction pre generalizing o oa q with
  | nil =>
    simp only [navSet, Except.ok.injEq] at h
    subst h
    rcases q with _ | ⟨j, q2⟩
    · exact absurd rfl hq
    · have hj : j ≠ last := by
        rintro rfl
        exact h2 ⟨q2, rfl⟩
      exact pathGet_objGet_congr (objGet_objSet_ne o last j v hj) q2
  | cons k rest ih =>
    obtain ⟨o2b, o2a, hrec, hoa, hcase⟩ := navSet_cons_inv h
    subst hoa
    rcases q with _ | ⟨j, q2⟩
    · exact absurd rfl hq
    · by_cases hj : j = k
      · subst hj
        have hq2 : q2 ≠ [] := by
          rintro rfl
          exact h1 ⟨rest ++ [last], rfl⟩
        rw [pathGet_cons_obj (objGet_objSet_self o j (.obj o2a)) hq2]
        have h1b : ¬ q2 <+: rest ++ [last] := fun hc =>
          h1 (List.cons_prefix_cons.mpr ⟨rfl, hc⟩)
        have h2b : ¬ (rest ++ [last]) <+: q2 := fun hc =>
          h2 (List.cons_prefix_cons.mpr ⟨rfl, hc⟩)
        rcases hcase with hk | ⟨rfl, hk⟩
        · rw [pathGet_cons_obj hk hq2]
          exact ih o2b o2a hrec q2 hq2 h1b h2b
        · have hchain : o2a = chainObj rest last v := by
            have h3 := navSet_nil_obj rest last v
            rw [hrec] at h3
            exact (Except.ok.injEq _ _).mp h3.symm ▸ rfl
          rw [pathGet_cons_not_obj hk hq2, hchain,
            pathGet_chainObj_ne rest last v q2 hq2 h1b h2b]
      · exact pathGet_objGet_congr
          (objGet_objSet_ne o k j (.obj o2a) hj) q2

/-- After a successful walk, every nonempty prefix of the navigated segments
holds an object. -/
theorem navSet_prefix_obj (pre : List String) (o : List (String × JVal))
    (last : String) (v : JVal) (oa : List (String × JVal))
    (h : navSet pre o last v = .ok oa) (q : List String) (hq : q ≠ [])
    (hpre : q <+: pre) :
    ∃ o2, pathGet oa q = some (.obj o2) := by
  induction pre generalizing o oa q with
  | nil =>
    rw [List.prefix_nil] at hpre
    exact absurd hpre hq
  | cons k rest ih =>
    obtain ⟨o2b, o2a, hrec, hoa, _⟩ := navSet_cons_inv h
    subst hoa
    rcases q with _ | ⟨j, q2⟩
    · exact absurd rfl hq
    · obtain ⟨rfl, hq2pre⟩ := List.cons_prefix_cons.mp hpre
      rcases q2 with _ | ⟨j2, q3⟩
      · exact ⟨o2a, by rw [pathGet_cons_single, objGet_objSet_self]⟩
      · rw [pathGet_cons_obj (objGet_objSet_self o j (.obj o2a)) (by simp)]
        exact ih o2b o2a hrec (j2 :: q3) (by simp) hq2pre

end SDAuto

namespace SDAuto

theorem splitDotAux_ne_nil (l cur : List Char) : splitDotAux l cur ≠ [] := by
  induction l generalizing cur with
  | nil => simp [splitDotAux]
  | cons c rest ih =>
    unfold splitDotAux
    split
    · simp
    · exact ih _

theorem splitDot_ne_nil (s : String) : splitDot s ≠ [] :=
  splitDotAux_ne_nil s.data []

theorem dropLast_append_getLastD (l : List String) (h : l ≠ []) :
    l.dropLast ++ [l.getLastD ""] = l := by
  rw [List.getLastD_eq_getLast?, List.getLast?_eq_getLast _ h]
  exact List.dropLast_append_getLast h

theorem prefix_concat_cases {α : Type} {q A : List α} {x : α}
    (h : q <+: A ++ [x]) : q <+: A ∨ q = A ++ [x] := by
  obtain ⟨t, ht⟩ := h
  rcases List.eq_nil_or_concat t with rfl | ⟨t2, y, hty⟩
  · right
    simpa using ht
  · left
    subst hty
    have h2 : (q ++ t2) ++ [y] = A ++ [x] := by
      simpa [List.concat_eq_append, List.append_assoc] using ht
    exact ⟨t2, (List.append_inj' h2 rfl).1⟩

/-- Invariant of the `dotKeysToTree` fold: every processed entry is readable
at its split path, and every readable nonempty path is accounted for by some
processed entry — as its exact path carrying its value, as a strict prefix of
it carrying an intermediate object, or as a strict extension of it (a path
into the entry's value). -/
def EntryInv (done : List (String × JVal)) (o : List (String × JVal)) : Prop :=
  (∀ e ∈ done, pathGet o (splitDot e.1) = some e.2)
  ∧ (∀ q w, q ≠ [] → pathGet o q = some w →
      ∃ e ∈ done,
        (q = splitDot e.1 ∧ w = e.2)
        ∨ (q ≠ splitDot e.1 ∧ q <+: splitDot e.1 ∧ ∃ o2, w = .obj o2)
        ∨ (splitDot e.1 ≠ q ∧ splitDot e.1 <+: q))

theorem entryInv_step {done : List (String × JVal)} {o : List (String × JVal)}
    (k : String) (v : JVal) (hinv : EntryInv done o)
    (hconf : ∀ e ∈ done,
      ¬ splitDot e.1 <+: splitDot k ∧ ¬ splitDot k <+: splitDot e.1) :
    ∃ oa, navSet (splitDot k).dropLast o ((splitDot k).getLastD "") v = .ok oa
      ∧ EntryInv (done ++ [(k, v)]) oa := by
  have hpne : splitDot k ≠ [] := splitDot_ne_nil k
  have hdecomp : (splitDot k).dropLast ++ [(splitDot k).getLastD ""] = splitDot k :=
    dropLast_append_getLastD _ hpne
  have hok : ∃ oa, navSet (splitDot k).dropLast o ((splitDot k).getLastD "") v
      = .ok oa := by
    refine navSet_ok _ o _ v (fun q p2 hq hqpre hpg => ?_)
    have hqp : q <+: splitDot k :=
      hqpre.trans ⟨[(splitDot k).getLastD ""], hdecomp⟩
    exfalso
    obtain ⟨e, he, hcases⟩ := hinv.2 q (.prim p2) hq hpg
    rcases hcases with ⟨h1, _⟩ | ⟨_, _, o2, h3⟩ | ⟨_, h2⟩
    · exact (hconf e he).1 (h1 ▸ hqp)
    · exact JVal.noConfusion h3
    · exact (hconf e he).1 (h2.trans hqp)
  obtain ⟨oa, hoa⟩ := hok
  refine ⟨oa, hoa, fun e he => ?_, fun q w hq hpg => ?_⟩
  · rcases List.mem_append.mp he with he | he
    · rw [navSet_frame _ o _ v oa hoa (splitDot e.1) (splitDot_ne_nil e.1)
        (by rw [hdecomp]; exact (hconf e he).1)
        (by rw [hdecomp]; exact (hconf e he).2)]
      exact hinv.1 e he
    · have he2 : e = (k, v) := by simpa using he
      subst he2
      have ht := navSet_target _ o _ v oa hoa
      rw [hdecomp] at ht
      exact ht
  · by_cases hqp : q = splitDot k
    · have ht := navSet_target _ o _ v oa hoa
      rw [hdecomp] at ht
      rw [hqp, ht] at hpg
      refine ⟨(k, v), by simp, Or.inl ⟨hqp, ?_⟩⟩
      exact (Option.some.injEq _ _).mp hpg.symm
    · by_cases hqpre : q <+: splitDot k
      · have hqfull : q <+: (splitDot k).dropLast ++ [(splitDot k).getLastD ""] := by
          rw [hdecomp]
          exact hqpre
        have hqd : q <+: (splitDot k).dropLast := by
          rcases prefix_concat_cases hqfull with hcs | hcs
          · exact hcs
          · exact absurd (hcs.trans hdecomp) hqp
        obtain ⟨o2, ho2⟩ := navSet_prefix_obj _ o _ v oa hoa q hq hqd
        rw [hpg] at ho2
        refine ⟨(k, v), by simp, Or.inr (Or.inl ⟨hqp, hqpre, o2, ?_⟩)⟩
        exact (Option.some.injEq _ _).mp ho2
      · by_cases hppre : splitDot k <+: q
        · exact ⟨(k, v), by simp,
            Or.inr (Or.inr ⟨fun hc => hqp hc.symm, hppre⟩)⟩
        · rw [navSet_frame _ o _ v oa hoa q hq
            (by rw [hdecomp]; exact hqpre) (by rw [hdecomp]; exact hppre)] at hpg
          obtain ⟨e, he, hcases⟩ := hinv.2 q w hq hpg
          exact ⟨e, List.mem_append_left _ he, hcases⟩

end SDAuto

namespace SDAuto

theorem dotKeysToTree_go (todo done : List (String × JVal))
    (o : List (String × JVal)) (hinv : EntryInv done o)
    (hnodup : ((done ++ todo).map Prod.fst).Nodup)
    (hpf : ∀ e1 ∈ done ++ todo, ∀ e2 ∈ done ++ todo, e1.1 ≠ e2.1 →
        ¬ splitDot e1.1 <+: splitDot e2.1) :
    ∃ oa, todo.foldlM
        (fun acc e =>
          navSet (splitDot e.1).dropLast acc ((splitDot e.1).getLastD "") e.2) o
      = .ok oa ∧ EntryInv (done ++ todo) oa := by
  induction todo generalizing done o with
  | nil => exact ⟨o, rfl, by simpa using hinv⟩
  | cons ekv todo2 ih =>
    obtain ⟨k, v⟩ := ekv
    have hassoc : done ++ (k, v) :: todo2 = (done ++ [(k, v)]) ++ todo2 := by
      rw [List.append_assoc]
      rfl
    have hconf : ∀ e ∈ done,
        ¬ splitDot e.1 <+: splitDot k ∧ ¬ splitDot k <+: splitDot e.1 := by
      intro e he
      have hmap : (done.map Prod.fst ++ (k :: todo2.map Prod.fst)).Nodup := by
        simpa using hnodup
      have hdisj := (List.nodup_append.mp hmap).2.2
      have hne : e.1 ≠ k := by
        intro hcontra
        exact hdisj (List.mem_map_of_mem Prod.fst he)
          (hcontra ▸ List.mem_cons_self e.1 (todo2.map Prod.fst))
      exact ⟨hpf e (List.mem_append_left _ he) (k, v)
          (List.mem_append_right _ (List.mem_cons_self _ _)) hne,
        hpf (k, v) (List.mem_append_right _ (List.mem_cons_self _ _)) e
          (List.mem_append_left _ he) (Ne.symm hne)⟩
    obtain ⟨oa1, hoa1, hinv1⟩ := entryInv_step k v hinv hconf
    obtain ⟨oa, hoa, hinvf⟩ := ih (done ++ [(k, v)]) oa1 hinv1
      (by rw [← hassoc]; exact hnodup)
      (by rw [← hassoc]; exact hpf)
    refine ⟨oa, ?_, by rw [hassoc]; exact hinvf⟩
    rw [List.foldlM_cons, hoa1]
    simpa [Except.bind] using hoa

/-- C9 (amended): provided the object's keys are pairwise distinct and no
key's dot-path is a prefix of another key's dot-path, `dotKeysToTree`
succeeds and every entry — in particular a flattened `"a.b.c": 5`, and
equally every key without dots — is readable in the result at its expanded
nested path with its original value. -/
theorem dotKeysToTree_expansion (entries : List (String × JVal))
    (hnodup : (entries.map Prod.fst).Nodup)
    (hpf : ∀ e1 ∈ entries, ∀ e2 ∈ entries, e1.1 ≠ e2.1 →
        ¬ splitDot e1.1 <+: splitDot e2.1) :
    ∃ o, dotKeysToTree entries = .ok o
      ∧ ∀ e ∈ entries, pathGet o (splitDot e.1) = some e.2 := by
  have h0 : EntryInv [] [] := by
    refine ⟨by simp, fun q w hq hpg => absurd hpg ?_⟩
    rw [pathGet_nil]
    simp
  obtain ⟨oa, hoa, hinv⟩ := dotKeysToTree_go entries [] [] h0
    (by simpa using hnodup) (by simpa using hpf)
  exact ⟨oa, hoa, fun e he => hinv.1 e (by simpa using he)⟩

/-- Witness for the amended C9 at a concrete object: the flattened
`"a.b.c": 5` expands to a nested `{a:{b:{c:5}}}` structure while the
dot-free key `"x"` is carried over unchanged, also in the presence of the
sibling `"a.b.d"`. -/
theorem dotKeysToTree_expansion_witness :
    ∃ o, dotKeysToTree
        [("a.b.c", .prim (.num 5)), ("x", .prim (.bool true)),
         ("a.b.d", .prim (.num 4))] = .ok o
      ∧ pathGet o ["a", "b", "c"] = some (.prim (.num 5))
      ∧ pathGet o ["x"] = some (.prim (.bool true)) := by
  obtain ⟨o, h1, h2⟩ := dotKeysToTree_expansion
    [("a.b.c", .prim (.num 5)), ("x", .prim (.bool true)),
     ("a.b.d", .prim (.num 4))] (by decide) (by decide)
  refine ⟨o, h1, ?_, ?_⟩
  · have h3 := h2 ("a.b.c", .prim (.num 5)) (by simp)
    have hsp : splitDot "a.b.c" = ["a", "b", "c"] := by decide
    rw [hsp] at h3
    exact h3
  · have h3 := h2 ("x", .prim (.bool true)) (by simp)
    have hsp : splitDot "x" = ["x"] := by decide
    rw [hsp] at h3
    exact h3

end SDAuto

namespace SDAuto

/-! ## C8: `createOverridesTree` (`src/endpoints.ts` 1312-1357),
`loadTxt2ImgOverrides` (1359-1372) and `createTree` (`src/utils.ts` 400-410)

Paths are modelled as segment lists (`createTree` splits them on `path.sep`
anyway); the current directory `"."` is the empty list; `path.join` appends a
segment; `path.extname(seg).length > 0` is `hasExt`; `path.dirname` drops the
last segment.  `loadTxt2ImgOverrides` is modelled by the map `fsOv` from a
directory path to the (already dot-expanded) contents of its override file —
`[]` when the file is absent or unreadable.  Override sets are ordered
key/value lists over an arbitrary value type `V`, and the object spread
`{ ...parent, ...own }` is `mergeOv`. -/

section OverridesTree

variable {V : Type}

/-- An override set: an ordered JavaScript object. -/
def ovGet (o : List (String × V)) (k : String) : Option V :=
  (o.find? (fun e => e.1 = k)).map (fun e => e.2)

/-- JavaScript spread merge `{ ...a, ...b }`: `a`'s keys keep their positions
but take `b`'s value where both define one; `b`'s new keys follow. -/
def mergeOv (a b : List (String × V)) : List (String × V) :=
  a.map (fun e => (e.1, (ovGet b e.1).getD e.2))
    ++ b.filter (fun e => !(a.any (fun e2 => e2.1 = e.1)))

theorem ovGet_append (x y : List (String × V)) (k : String) :
    ovGet (x ++ y) k = (ovGet x k).or (ovGet y k) := by
  induction x with
  | nil => simp [ovGet]
  | cons e t ih =>
    by_cases he : e.1 = k
    · simp [ovGet, List.find?_cons_of_pos, he]
    · simpa [ovGet, List.find?_cons_of_neg, he] using ih

theorem ovGet_map_subst (a b : List (String × V)) (k : String) :
    ovGet (a.map (fun e => (e.1, (ovGet b e.1).getD e.2))) k
      = (ovGet a k).map (fun v => (ovGet b k).getD v) := by
  induction a with
  | nil => simp [ovGet]
  | cons e t ih =>
    by_cases he : e.1 = k
    · subst he
      simp [ovGet, List.find?_cons_of_pos]
    · simpa [ovGet, List.find?_cons_of_neg, he] using ih

theorem ovGet_filter_out (a b : List (String × V)) (k : String)
    (h : a.any (fun e2 => e2.1 = k) = true) :
    ovGet (b.filter (fun e => !(a.any (fun e2 => e2.1 = e.1)))) k = none := by
  induction b with
  | nil => simp [ovGet]
  | cons e t ih =>
    by_cases he : e.1 = k
    · subst he
      simpa [List.filter_cons, h] using ih
    · rw [List.filter_cons]
      split
      · simpa [ovGet, List.find?_cons_of_neg, he] using ih
      · exact ih

theorem ovGet_filter_keep (a b : List (String × V)) (k : String)
    (h : a.any (fun e2 => e2.1 = k) = false) :
    ovGet (b.filter (fun e => !(a.any (fun e2 => e2.1 = e.1)))) k
      = ovGet b k := by
  induction b with
  | nil => simp
  | cons e t ih =>
    by_cases he : e.1 = k
    · have h2 : (a.any fun e2 => e2.1 = e.1) = false := by rwa [he]
      rw [List.filter_cons, if_pos (by simp [h2])]
      simp [ovGet, List.find?_cons_of_pos, he]
    · rw [List.filter_cons]
      split
      · simpa [ovGet, List.find?_cons_of_neg, he] using ih
      · rw [ih]
        simp [ovGet, List.find?_cons_of_neg, he]

theorem any_key_iff_ovGet (a : List (String × V)) (k : String) :
    (a.any fun e => e.1 = k) = true ↔ (ovGet a k).isSome := by
  induction a with
  | nil => simp [ovGet]
  | cons e t ih =>
    by_cases he : e.1 = k
    · simp [List.any_cons, he, ovGet, List.find?_cons_of_pos]
    · have hg : ovGet (e :: t) k = ovGet t k := by
        simp [ovGet, List.find?_cons_of_neg, he]
      rw [List.any_cons, hg, ← ih]
      simp [he]

/-- Key-level reading of the spread merge: nearer (right) values win. -/
theorem ovGet_mergeOv (a b : List (String × V)) (k : String) :
    ovGet (mergeOv a b) k = (ovGet b k).or (ovGet a k) := by
  unfold mergeOv
  rw [ovGet_append, ovGet_map_subst]
  cases hak : a.any (fun e2 => e2.1 = k) with
  | true =>
    obtain ⟨v, hv⟩ := Option.isSome_iff_exists.mp ((any_key_iff_ovGet a k).mp hak)
    rw [ovGet_filter_out a b k hak, hv]
    cases hbk : ovGet b k <;> simp [hbk]
  | false =>
    have : ovGet a k = none := by
      rcases hcontra : ovGet a k with _ | v
      · rfl
      · rw [(any_key_iff_ovGet a k).mpr (by simp [hcontra])] at hak
        cases hak
    rw [ovGet_filter_keep a b k hak, this]
    cases hbk : ovGet b k <;> simp

/-- The effective override set of a directory: the root set merged with every
prefix directory's own set, from the root downward. -/
def effOvAux (fsOv : List String → List (String × V))
    (acc : List (String × V)) (sofar : List String) :
    List String → List (String × V)
  | [] => acc
  | d :: rest =>
    effOvAux fsOv (mergeOv acc (fsOv (sofar ++ [d]))) (sofar ++ [d]) rest

/-- Effective override set of `dir`, seeded by the root set `fsOv []`. -/
def effOv (fsOv : List String → List (String × V)) (dir : List String) :
    List (String × V) :=
  effOvAux fsOv (fsOv []) [] dir

theorem effOvAux_snoc (fsOv : List String → List (String × V))
    (acc : List (String × V)) (sofar rest : List String) (d : String) :
    effOvAux fsOv acc sofar (rest ++ [d])
      = mergeOv (effOvAux fsOv acc sofar rest) (fsOv (sofar ++ rest ++ [d])) := by
  induction rest generalizing acc sofar with
  | nil => simp [effOvAux]
  | cons r rest2 ih =>
    rw [List.cons_append, effOvAux, effOvAux, ih]
    simp [List.append_assoc]

theorem effOv_snoc (fsOv : List String → List (String × V))
    (dir : List String) (d : String) :
    effOv fsOv (dir ++ [d]) = mergeOv (effOv fsOv dir) (fsOv (dir ++ [d])) := by
  unfold effOv
  rw [effOvAux_snoc]
  simp

end OverridesTree

end SDAuto

namespace SDAuto

/-- `TreeNode` (`src/utils.ts` 24-27). -/
inductive TreeNode where
  | node (name : String) (children : List TreeNode)

/-- Node name. -/
def TreeNode.name : TreeNode → String
  | .node n _ => n

/-- Node children. -/
def TreeNode.children : TreeNode → List TreeNode
  | .node _ c => c

/-- One `createTreeNode` insertion (`src/utils.ts` 400-407): find the node of
the leading segment — pushing a fresh one at the end when absent — and
recurse into its children with the remaining segments.  (The source mutates
the single found node; the map form is identical because names stay unique
at every level.) -/
def insertPath : List String → List TreeNode → List TreeNode
  | [], tree => tree
  | n :: rest, tree =>
    if tree.any (fun t => t.name = n) then
      tree.map (fun t =>
        if t.name = n then .node n (insertPath rest t.children) else t)
    else tree ++ [.node n (insertPath rest [])]

/-- `createTree` (`src/utils.ts` 409-410). -/
def createTree (paths : List (List String)) : List TreeNode :=
  paths.foldl (fun acc p => insertPath p acc) []

/-- `path.extname(segment).length > 0`: the segment has a dot after its first
character (Node's `extname` ignores the leading dot of hidden files; the
`".."` special case cannot occur in normalized relative file paths). -/
def hasExt (s : String) : Bool := (s.data.drop 1).contains '.'

/-- The forest contains the segment chain `p` (each segment a child of the
previous one). -/
inductive HasChain : List TreeNode → List String → Prop
  | here {ts : List TreeNode} {n : String} {children : List TreeNode} :
      TreeNode.node n children ∈ ts → HasChain ts [n]
  | deeper {ts : List TreeNode} {n : String} {children : List TreeNode}
      {p : List String} : TreeNode.node n children ∈ ts →
      HasChain children p → HasChain ts (n :: p)

/-- Well-formed tree: extension-bearing names are leaves, and sibling names
are distinct. -/
inductive WFT : TreeNode → Prop
  | mk {name : String} {children : List TreeNode} :
      (hasExt name = true → children = []) →
      (children.map TreeNode.name).Nodup →
      (∀ c ∈ children, WFT c) →
      WFT (.node name children)

/-- Well-formed forest. -/
def WFF (ts : List TreeNode) : Prop :=
  (ts.map TreeNode.name).Nodup ∧ ∀ t ∈ ts, WFT t

/-- Only the last segment of a path may carry an extension. -/
def ValidSegs (p : List String) : Prop :=
  ∀ s ∈ p.dropLast, hasExt s = false

/-- A usable input file path: nonempty, extension-bearing final segment,
extension-free directory segments. -/
def ValidFilePath (p : List String) : Prop :=
  p ≠ [] ∧ hasExt (p.getLastD "") = true ∧ ValidSegs p

instance (p : List String) : Decidable (ValidSegs p) := by
  unfold ValidSegs
  infer_instance

instance (p : List String) : Decidable (ValidFilePath p) := by
  unfold ValidFilePath
  exact instDecidableAnd

theorem mem_map_insert_self {t : List TreeNode} {n : String}
    {c0 : List TreeNode} (rest : List String)
    (ht0 : TreeNode.node n c0 ∈ t) :
    TreeNode.node n (insertPath rest c0) ∈ t.map (fun t2 =>
      if t2.name = n then TreeNode.node n (insertPath rest t2.children)
      else t2) := by
  have hfx : (fun t2 =>
      if t2.name = n then TreeNode.node n (insertPath rest t2.children)
      else t2) (TreeNode.node n c0) = TreeNode.node n (insertPath rest c0) := by
    simp [TreeNode.name, TreeNode.children]
  have h2 := List.mem_map_of_mem (fun t2 =>
    if t2.name = n then TreeNode.node n (insertPath rest t2.children)
    else t2) ht0
  rwa [hfx] at h2

theorem mem_map_insert_other {t : List TreeNode} {m n : String}
    {c : List TreeNode} (p2 : List String) (hmem : TreeNode.node n c ∈ t)
    (hnm : n ≠ m) :
    TreeNode.node n c ∈ t.map (fun t2 =>
      if t2.name = m then TreeNode.node m (insertPath p2 t2.children)
      else t2) := by
  have hfx : (fun t2 =>
      if t2.name = m then TreeNode.node m (insertPath p2 t2.children)
      else t2) (TreeNode.node n c) = TreeNode.node n c := by
    simp [TreeNode.name, hnm]
  have h2 := List.mem_map_of_mem (fun t2 =>
    if t2.name = m then TreeNode.node m (insertPath p2 t2.children)
    else t2) hmem
  rwa [hfx] at h2

theorem insertPath_hasChain (p : List String) (t : List TreeNode)
    (hp : p ≠ []) : HasChain (insertPath p t) p := by
  induction p generalizing t with
  | nil => exact absurd rfl hp
  | cons n rest ih =>
    unfold insertPath
    split
    case isTrue hAny =>
      obtain ⟨t0, ht0, hname⟩ := List.any_eq_true.mp hAny
      obtain ⟨n0, c0⟩ := t0
      have hn0 : n0 = n := by simpa [TreeNode.name] using hname
      subst hn0
      have hmem := mem_map_insert_self rest ht0
      rcases rest with _ | ⟨r, rest2⟩
      · exact .here hmem
      · exact .deeper hmem (ih _ (by simp))
    case isFalse hAny =>
      have hmem : TreeNode.node n (insertPath rest []) ∈
          t ++ [TreeNode.node n (insertPath rest [])] :=
        List.mem_append_right _ (List.mem_cons_self _ _)
      rcases rest with _ | ⟨r, rest2⟩
      · exact .here hmem
      · exact .deeper hmem (ih _ (by simp))

theorem insertPath_mono (p : List String) (ts : List TreeNode)
    (q : List String) (h : HasChain ts q) : HasChain (insertPath p ts) q := by
  induction h generalizing p with
  | @here ts2 n c hmem =>
    rcases p with _ | ⟨m, p2⟩
    · exact .here hmem
    · unfold insertPath
      split
      case isTrue hAny =>
        by_cases hnm : n = m
        · subst hnm
          exact .here (mem_map_insert_self p2 hmem)
        · exact .here (mem_map_insert_other p2 hmem hnm)
      case isFalse hAny =>
        exact .here (List.mem_append_left _ hmem)
  | @deeper ts2 n c q2 hmem hsub ih =>
    rcases p with _ | ⟨m, p2⟩
    · exact .deeper hmem hsub
    · unfold insertPath
      split
      case isTrue hAny =>
        by_cases hnm : n = m
        · subst hnm
          exact .deeper (mem_map_insert_self p2 hmem) (ih p2)
        · exact .deeper (mem_map_insert_other p2 hmem hnm) hsub
      case isFalse hAny =>
        exact .deeper (List.mem_append_left _ hmem) hsub

end SDAuto

namespace SDAuto

theorem insertPath_WFF : ∀ (p : List String) (ts : List TreeNode),
    WFF ts → ValidSegs p → WFF (insertPath p ts) := by
  intro p
  induction p with
  | nil => exact fun ts hwf _ => hwf
  | cons n rest ih =>
    intro ts hwf hv
    have hvrest : ValidSegs rest := by
      intro s hs
      apply hv
      rcases rest with _ | ⟨r, rest2⟩
      · simp at hs
      · simpa [List.dropLast] using Or.inr hs
    have hnext : rest ≠ [] → hasExt n = false := by
      intro hne
      apply hv
      rcases rest with _ | ⟨r, rest2⟩
      · exact absurd rfl hne
      · simp [List.dropLast]
    unfold insertPath
    split
    case isTrue hAny =>
      refine ⟨?_, ?_⟩
      · have hnames : (ts.map (fun t2 =>
            if t2.name = n then TreeNode.node n (insertPath rest t2.children)
            else t2)).map TreeNode.name = ts.map TreeNode.name := by
          rw [List.map_map]
          refine List.map_congr_left (fun t2 ht2 => ?_)
          obtain ⟨n0, c0⟩ := t2
          by_cases h2 : n0 = n
          · simp [Function.comp, TreeNode.name, TreeNode.children, h2]
          · simp [Function.comp, TreeNode.name, h2]
        rw [hnames]
        exact hwf.1
      · intro t2 ht2
        obtain ⟨t0, ht0, heq⟩ := List.mem_map.mp ht2
        by_cases h0 : t0.name = n
        · obtain ⟨n0, c0⟩ := t0
          have hn0 : n0 = n := by simpa [TreeNode.name] using h0
          subst hn0
          rw [if_pos h0] at heq
          subst heq
          cases hwf.2 _ ht0 with
          | mk hleaf hnd hch =>
            have hrec := ih c0 ⟨hnd, hch⟩ hvrest
            refine WFT.mk (fun hx => ?_) hrec.1 hrec.2
            rcases rest with _ | ⟨r, rest2⟩
            · exact hleaf hx
            · rw [hnext (by simp)] at hx
              cases hx
        · rw [if_neg h0] at heq
          subst heq
          exact hwf.2 _ ht0
    case isFalse hAny =>
      refine ⟨?_, ?_⟩
      · rw [List.map_append]
        have hfresh : n ∉ ts.map TreeNode.name := by
          intro hc
          obtain ⟨t0, ht0, hn0⟩ := List.mem_map.mp hc
          exact hAny (List.any_eq_true.mpr ⟨t0, ht0, by simp [hn0]⟩)
        simp only [List.map_cons, List.map_nil, TreeNode.name]
        rw [List.nodup_append]
        exact ⟨hwf.1, List.nodup_singleton n,
          fun a ha hb => by simp at hb; subst hb; exact hfresh ha⟩
      · intro t2 ht2
        rcases List.mem_append.mp ht2 with hmem | hmem
        · exact hwf.2 _ hmem
        · have ht2e : t2 = TreeNode.node n (insertPath rest []) := by
            simpa using hmem
          subst ht2e
          have hrec := ih [] ⟨List.nodup_nil, by simp⟩ hvrest
          refine WFT.mk (fun hx => ?_) hrec.1 hrec.2
          rcases rest with _ | ⟨r, rest2⟩
          · rfl
          · rw [hnext (by simp)] at hx
            cases hx

theorem foldl_insertPath_mono (paths : List (List String))
    (acc : List TreeNode) (q : List String) (h : HasChain acc q) :
    HasChain (paths.foldl (fun a p2 => insertPath p2 a) acc) q := by
  induction paths generalizing acc with
  | nil => exact h
  | cons p2 rest ih => exact ih _ (insertPath_mono p2 acc q h)

theorem foldl_insertPath_hasChain :
    ∀ (paths : List (List String)) (acc : List TreeNode) (p : List String),
    p ∈ paths → p ≠ [] →
    HasChain (paths.foldl (fun a p2 => insertPath p2 a) acc) p := by
  intro paths
  induction paths with
  | nil => intro acc p hp; simp at hp
  | cons p2 rest ih =>
    intro acc p hp hne
    rcases List.mem_cons.mp hp with rfl | hmem
    · exact foldl_insertPath_mono rest _ p (insertPath_hasChain p acc hne)
    · exact ih _ p hmem hne

theorem createTree_hasChain (paths : List (List String)) (p : List String)
    (hp : p ∈ paths) (hne : p ≠ []) : HasChain (createTree paths) p :=
  foldl_insertPath_hasChain paths [] p hp hne

theorem createTree_WFF (paths : List (List String))
    (hv : ∀ p ∈ paths, ValidSegs p) : WFF (createTree paths) := by
  unfold createTree
  suffices h : ∀ acc, WFF acc → WFF (paths.foldl (fun a p2 => insertPath p2 a) acc) from
    h [] ⟨List.nodup_nil, by simp⟩
  induction paths with
  | nil => exact fun acc hacc => hacc
  | cons p2 rest ih =>
    intro acc hacc
    exact ih (fun p hp => hv p (List.mem_cons_of_mem _ hp)) _
      (insertPath_WFF p2 acc hacc (hv p2 (List.mem_cons_self _ _)))

end SDAuto

namespace SDAuto

section OverridesWalk

variable {V : Type}

/-- One `Txt2ImgOverrideGroup`: a directory path, its effective override set
and the parameter file names grouped under it. -/
structure OGroup (V : Type) where
  dirPath : List String
  overrides : List (String × V)
  fileNames : List String

/-- The `dirNode.fileNames.push(fileName)` update, keyed by `dirPath`. -/
def pushName (dp : List String) (n : String) (g : OGroup V) : OGroup V :=
  if g.dirPath = dp then { g with fileNames := g.fileNames ++ [n] } else g

theorem pushName_dirPath (dp : List String) (n : String) (g : OGroup V) :
    (pushName dp n g).dirPath = g.dirPath := by
  unfold pushName
  split <;> rfl

theorem pushName_overrides (dp : List String) (n : String) (g : OGroup V) :
    (pushName dp n g).overrides = g.overrides := by
  unfold pushName
  split <;> rfl

theorem pushName_fileNames_mem (dp : List String) (n : String) (g : OGroup V)
    (f : String) (hf : f ∈ g.fileNames) : f ∈ (pushName dp n g).fileNames := by
  unfold pushName
  split
  · exact List.mem_append_left _ hf
  · exact hf

theorem pushName_self_mem (dp : List String) (n : String) (g : OGroup V)
    (h : g.dirPath = dp) : n ∈ (pushName dp n g).fileNames := by
  unfold pushName
  rw [if_pos h]
  exact List.mem_append_right _ (List.mem_cons_self _ _)

/-- The per-node update of the shared group list in `createOverridesTreeNode`
(`src/endpoints.ts` 1318-1327): compute the node's directory path and merged
override set; a file node pushes its name into the existing group (creating
it when absent), a directory node creates its group when absent. -/
def updateAcc (fsOv : List String → List (String × V)) (parentPath : List String)
    (name : String) (parentOv : List (String × V)) (acc : List (OGroup V)) :
    List (OGroup V) :=
  let fullPath := parentPath ++ [name]
  let dirPath := if hasExt name then parentPath else fullPath
  let ov := mergeOv parentOv (fsOv dirPath)
  if fullPath ≠ dirPath then
    if acc.any (fun g => g.dirPath = dirPath) then acc.map (pushName dirPath name)
    else acc ++ [⟨dirPath, ov, [name]⟩]
  else if acc.any (fun g => g.dirPath = dirPath) then acc
  else acc ++ [⟨dirPath, ov, []⟩]

theorem append_singleton_ne (pp : List String) (name : String) :
    (pp ++ [name] : List String) ≠ pp := by
  intro hcc
  simpa using congrArg List.length hcc

theorem updateAcc_file (fsOv : List String → List (String × V))
    (pp : List String) (name : String) (pov : List (String × V))
    (acc : List (OGroup V)) (hx : hasExt name = true)
    (hAny : acc.any (fun g => g.dirPath = pp) = true) :
    updateAcc fsOv pp name pov acc = acc.map (pushName pp name) := by
  unfold updateAcc
  simp [hx, hAny, append_singleton_ne]

theorem updateAcc_dir_found (fsOv : List String → List (String × V))
    (pp : List String) (name : String) (pov : List (String × V))
    (acc : List (OGroup V)) (hx : hasExt name = false)
    (hAny : acc.any (fun g => g.dirPath = pp ++ [name]) = true) :
    updateAcc fsOv pp name pov acc = acc := by
  unfold updateAcc
  simp [hx, hAny]

theorem updateAcc_dir_fresh (fsOv : List String → List (String × V))
    (pp : List String) (name : String) (pov : List (String × V))
    (acc : List (OGroup V)) (hx : hasExt name = false)
    (hAny : acc.any (fun g => g.dirPath = pp ++ [name]) = false) :
    updateAcc fsOv pp name pov acc
      = acc ++ [⟨pp ++ [name], mergeOv pov (fsOv (pp ++ [name])), []⟩] := by
  unfold updateAcc
  simp [hx, hAny]

/-- The recursive walk of `createOverridesTreeNode` over a forest
(sequentialised; the source fans the children out with `Promise.all` over a
shared array, with the same per-directory results). -/
def walkChildren (fsOv : List String → List (String × V)) :
    List TreeNode → List String → List (String × V) → List (OGroup V) →
    List (OGroup V)
  | [], _, _, acc => acc
  | .node name children :: rest, parentPath, parentOv, acc =>
    walkChildren fsOv rest parentPath parentOv
      (walkChildren fsOv children (parentPath ++ [name])
        (mergeOv parentOv (fsOv (if hasExt name then parentPath
          else parentPath ++ [name])))
        (updateAcc fsOv parentPath name parentOv acc))

theorem walkChildren_nil (fsOv : List String → List (String × V))
    (pp : List String) (pov : List (String × V)) (acc : List (OGroup V)) :
    walkChildren fsOv [] pp pov acc = acc := by
  rw [walkChildren]

/-- The walk invariant: group directory paths are distinct and every group
carries the effective override set of its directory. -/
def AccInv (fsOv : List String → List (String × V))
    (acc : List (OGroup V)) : Prop :=
  (acc.map (fun g => g.dirPath)).Nodup
  ∧ ∀ g ∈ acc, g.overrides = effOv fsOv g.dirPath

/-- A group refined by the walk: same directory, same overrides, at least
the same file names. -/
def GroupLE (g g2 : OGroup V) : Prop :=
  g2.dirPath = g.dirPath ∧ g2.overrides = g.overrides
    ∧ ∀ f ∈ g.fileNames, f ∈ g2.fileNames

/-- The walk only refines existing groups. -/
def Preserves (acc out : List (OGroup V)) : Prop :=
  ∀ g ∈ acc, ∃ g2 ∈ out, GroupLE g g2

theorem preserves_refl (acc : List (OGroup V)) : Preserves acc acc :=
  fun g hg => ⟨g, hg, rfl, rfl, fun _ hf => hf⟩

theorem preserves_trans {a b c : List (OGroup V)} (h1 : Preserves a b)
    (h2 : Preserves b c) : Preserves a c := by
  intro g hg
  obtain ⟨g2, hg2, hd2, ho2, hf2⟩ := h1 g hg
  obtain ⟨g3, hg3, hd3, ho3, hf3⟩ := h2 g2 hg2
  exact ⟨g3, hg3, hd3.trans hd2, ho3.trans ho2, fun f hf => hf3 f (hf2 f hf)⟩

theorem preserves_map_pushName (acc : List (OGroup V)) (dp : List String)
    (n : String) : Preserves acc (acc.map (pushName dp n)) := by
  intro g hg
  exact ⟨pushName dp n g, List.mem_map_of_mem _ hg, pushName_dirPath dp n g,
    pushName_overrides dp n g, fun f hf => pushName_fileNames_mem dp n g f hf⟩

theorem preserves_append (acc : List (OGroup V)) (g0 : OGroup V) :
    Preserves acc (acc ++ [g0]) := by
  intro g hg
  exact ⟨g, List.mem_append_left _ hg, rfl, rfl, fun _ hf => hf⟩

theorem accInv_map_pushName (fsOv : List String → List (String × V))
    (acc : List (OGroup V)) (dp : List String) (n : String)
    (h : AccInv fsOv acc) : AccInv fsOv (acc.map (pushName dp n)) := by
  constructor
  · have hmm : (acc.map (pushName dp n)).map (fun g => g.dirPath)
        = acc.map (fun g => g.dirPath) := by
      rw [List.map_map]
      exact List.map_congr_left fun g _ => pushName_dirPath dp n g
    rw [hmm]
    exact h.1
  · intro g hg
    obtain ⟨g0, hg0, heq⟩ := List.mem_map.mp hg
    subst heq
    rw [pushName_overrides, pushName_dirPath]
    exact h.2 g0 hg0

theorem accInv_append (fsOv : List String → List (String × V))
    (acc : List (OGroup V)) (g0 : OGroup V) (h : AccInv fsOv acc)
    (hfresh : acc.any (fun g2 => g2.dirPath = g0.dirPath) = false)
    (hov : g0.overrides = effOv fsOv g0.dirPath) :
    AccInv fsOv (acc ++ [g0]) := by
  constructor
  · rw [List.map_append]
    simp only [List.map_cons, List.map_nil]
    rw [List.nodup_append]
    refine ⟨h.1, List.nodup_singleton _, fun a ha hb => ?_⟩
    simp only [List.mem_singleton] at hb
    subst hb
    obtain ⟨g2, hg2, hg2d⟩ := List.mem_map.mp ha
    have hcontra : acc.any (fun g2 => g2.dirPath = g0.dirPath) = true :=
      List.any_eq_true.mpr ⟨g2, hg2, by simp [hg2d]⟩
    rw [hfresh] at hcontra
    cases hcontra
  · intro g hg
    rcases List.mem_append.mp hg with hg | hg
    · exact h.2 g hg
    · simp only [List.mem_singleton] at hg
      subst hg
      exact hov

theorem hasChain_ne_nil {ts : List TreeNode} {q : List String}
    (h : HasChain ts q) : q ≠ [] := by
  cases h <;> simp

theorem hasChain_cons_inv {ts : List TreeNode} {q : List String}
    (h : HasChain ts q) :
    ∃ n c p, TreeNode.node n c ∈ ts ∧ q = n :: p
      ∧ (p = [] ∨ HasChain c p) := by
  cases h with
  | here hm => exact ⟨_, _, [], hm, rfl, Or.inl rfl⟩
  | deeper hm hs => exact ⟨_, _, _, hm, rfl, Or.inr hs⟩

theorem hasChain_build {ts : List TreeNode} {n : String} {c : List TreeNode}
    {p : List String} (hm : TreeNode.node n c ∈ ts)
    (hp : p = [] ∨ HasChain c p) : HasChain ts (n :: p) := by
  rcases hp with rfl | hp
  · exact .here hm
  · exact .deeper hm hp

end OverridesWalk

end SDAuto

namespace SDAuto

section OverridesWalkSpec

variable {V : Type}

/-- Correctness of the walk: the invariant is maintained, existing groups are
only refined, and for every file chain in the forest (a chain whose final
segment bears an extension) the resulting group list holds a group at the
chain's directory containing the file name — whose overrides are, by the
invariant, the directory's effective override set. -/
theorem walkChildren_spec (fsOv : List String → List (String × V))
    (forest : List TreeNode) (parentPath : List String)
    (acc : List (OGroup V)) (hwf : WFF forest)
    (hroot : ∃ g ∈ acc, g.dirPath = parentPath)
    (hinv : AccInv fsOv acc) :
    AccInv fsOv (walkChildren fsOv forest parentPath (effOv fsOv parentPath) acc)
    ∧ Preserves acc
        (walkChildren fsOv forest parentPath (effOv fsOv parentPath) acc)
    ∧ (∀ ds f, HasChain forest (ds ++ [f]) → hasExt f = true →
        ∃ g ∈ walkChildren fsOv forest parentPath (effOv fsOv parentPath) acc,
          g.dirPath = parentPath ++ ds ∧ f ∈ g.fileNames) := by
  match forest with
  | [] =>
    rw [walkChildren_nil]
    refine ⟨hinv, preserves_refl acc, fun ds f hchain hfx => ?_⟩
    obtain ⟨n, c, p, hm, _, _⟩ := hasChain_cons_inv hchain
    exact absurd hm (List.not_mem_nil _)
  | .node name children :: rest =>
    obtain ⟨hleaf, hcnd, hcwts⟩ := hwf.2 _ (List.mem_cons_self _ _)
    have hwfRest : WFF rest := ⟨(List.nodup_cons.mp hwf.1).2,
      fun t ht => hwf.2 t (List.mem_cons_of_mem _ ht)⟩
    by_cases hx : hasExt name = true
    · have hcnil : children = [] := hleaf hx
      obtain ⟨g0, hg0, hg0d⟩ := hroot
      have hAny : acc.any (fun g => g.dirPath = parentPath) = true :=
        List.any_eq_true.mpr ⟨g0, hg0, by simp [hg0d]⟩
      rw [walkChildren, hcnil, walkChildren_nil,
        updateAcc_file fsOv parentPath name _ acc hx hAny]
      have hinv1 := accInv_map_pushName fsOv acc parentPath name hinv
      have hpres1 := preserves_map_pushName acc parentPath name
      have hroot1 : ∃ g ∈ acc.map (pushName parentPath name),
          g.dirPath = parentPath := by
        obtain ⟨g2, hg2, hd2, _, _⟩ := hpres1 g0 hg0
        exact ⟨g2, hg2, hd2.trans hg0d⟩
      have ih2 := walkChildren_spec fsOv rest parentPath
        (acc.map (pushName parentPath name)) hwfRest hroot1 hinv1
      refine ⟨ih2.1, preserves_trans hpres1 ih2.2.1, fun ds f hchain hfx => ?_⟩
      obtain ⟨n, c, p, hm, heq, hrest⟩ := hasChain_cons_inv hchain
      rcases List.mem_cons.mp hm with hhead | hmem2
      · injection hhead with hn hc
        rcases hrest with rfl | hsub
        · have hf : f = n ∧ ds = [] := by
            cases ds with
            | nil => simpa using heq
            | cons d ds2 => simp at heq
          obtain ⟨hfn, hds⟩ := hf
          subst hds
          have hgrp : pushName parentPath name g0
              ∈ acc.map (pushName parentPath name) := List.mem_map_of_mem _ hg0
          obtain ⟨g3, hg3, hd3, _, hf3⟩ := ih2.2.1 _ hgrp
          refine ⟨g3, hg3, ?_, ?_⟩
          · rw [hd3, pushName_dirPath, hg0d]
            simp
          · rw [hfn, hn]
            exact hf3 _ (pushName_self_mem _ _ _ hg0d)
        · rw [hc] at hsub
          obtain ⟨_, _, _, hm2, _, _⟩ := hasChain_cons_inv hsub
          exact absurd hm2 (List.not_mem_nil _)
      · refine ih2.2.2 ds f ?_ hfx
        rw [heq]
        exact hasChain_build hmem2 hrest
    · have hx2 : hasExt name = false := by
        rwa [Bool.not_eq_true] at hx
      have hovstep : mergeOv (effOv fsOv parentPath) (fsOv (parentPath ++ [name]))
          = effOv fsOv (parentPath ++ [name]) :=
        (effOv_snoc fsOv parentPath name).symm
      rw [walkChildren, if_neg hx, hovstep]
      have key : ∀ acc1 : List (OGroup V), AccInv fsOv acc1 → Preserves acc acc1 →
          (∃ g ∈ acc1, g.dirPath = parentPath ++ [name]) →
          (∃ g ∈ acc1, g.dirPath = parentPath) →
          AccInv fsOv (walkChildren fsOv rest parentPath (effOv fsOv parentPath)
            (walkChildren fsOv children (parentPath ++ [name])
              (effOv fsOv (parentPath ++ [name])) acc1))
          ∧ Preserves acc (walkChildren fsOv rest parentPath (effOv fsOv parentPath)
              (walkChildren fsOv children (parentPath ++ [name])
                (effOv fsOv (parentPath ++ [name])) acc1))
          ∧ (∀ ds f, HasChain (.node name children :: rest) (ds ++ [f]) →
              hasExt f = true →
              ∃ g ∈ walkChildren fsOv rest parentPath (effOv fsOv parentPath)
                  (walkChildren fsOv children (parentPath ++ [name])
                    (effOv fsOv (parentPath ++ [name])) acc1),
                g.dirPath = parentPath ++ ds ∧ f ∈ g.fileNames) := by
        intro acc1 hinv1 hpres1 hroot1 hrootpp
        have ih1 := walkChildren_spec fsOv children (parentPath ++ [name]) acc1
          ⟨hcnd, hcwts⟩ hroot1 hinv1
        have hroot2 : ∃ g ∈ walkChildren fsOv children (parentPath ++ [name])
            (effOv fsOv (parentPath ++ [name])) acc1, g.dirPath = parentPath := by
          obtain ⟨g2, hg2, hg2d⟩ := hrootpp
          obtain ⟨g3, hg3, hd3, _, _⟩ := ih1.2.1 g2 hg2
          exact ⟨g3, hg3, hd3.trans hg2d⟩
        have ih2 := walkChildren_spec fsOv rest parentPath
          (walkChildren fsOv children (parentPath ++ [name])
            (effOv fsOv (parentPath ++ [name])) acc1) hwfRest hroot2 ih1.1
        refine ⟨ih2.1, preserves_trans hpres1 (preserves_trans ih1.2.1 ih2.2.1),
          fun ds f hchain hfx => ?_⟩
        obtain ⟨n, c, p, hm, heq, hrest⟩ := hasChain_cons_inv hchain
        rcases List.mem_cons.mp hm with hhead | hmem2
        · injection hhead with hn hc
          rcases hrest with rfl | hsub
          · have hf : f = n ∧ ds = [] := by
              cases ds with
              | nil => simpa using heq
              | cons d ds2 => simp at heq
            rw [hf.1, hn, hx2] at hfx
            cases hfx
          · rw [hc] at hsub
            cases ds with
            | nil =>
              have hpn := hasChain_ne_nil hsub
              simp only [List.nil_append, List.cons.injEq] at heq
              exact absurd heq.2.symm hpn
            | cons d ds2 =>
              rw [List.cons_append] at heq
              injection heq with hd hp
              obtain ⟨g2, hg2, hg2d, hg2f⟩ :=
                ih1.2.2 ds2 f (by rw [hp]; exact hsub) hfx
              obtain ⟨g3, hg3, hd3, _, hf3⟩ := ih2.2.1 g2 hg2
              refine ⟨g3, hg3, ?_, hf3 f hg2f⟩
              rw [hd3, hg2d, hd, hn]
              simp
        · refine ih2.2.2 ds f ?_ hfx
          rw [heq]
          exact hasChain_build hmem2 hrest
      by_cases hAny : acc.any (fun g => g.dirPath = parentPath ++ [name]) = true
      · rw [updateAcc_dir_found fsOv parentPath name _ acc hx2 hAny]
        refine key acc hinv (preserves_refl acc) ?_ hroot
        obtain ⟨g2, hg2, hg2d⟩ := List.any_eq_true.mp hAny
        exact ⟨g2, hg2, by simpa using hg2d⟩
      · have hAnyF : acc.any (fun g => g.dirPath = parentPath ++ [name]) = false := by
          rwa [Bool.not_eq_true] at hAny
        rw [updateAcc_dir_fresh fsOv parentPath name _ acc hx2 hAnyF, hovstep]
        refine key _ ?_ (preserves_append acc _) ?_ ?_
        · exact accInv_append fsOv acc _ hinv hAnyF rfl
        · exact ⟨_, List.mem_append_right _ (List.mem_cons_self _ _), rfl⟩
        · obtain ⟨g0, hg0, hg0d⟩ := hroot
          exact ⟨g0, List.mem_append_left _ hg0, hg0d⟩
termination_by sizeOf forest

end OverridesWalkSpec

end SDAuto

namespace SDAuto

section OverridesTreeMain

variable {V : Type}

/-- The `reduce` step of `createOverridesTree` (`src/endpoints.ts` 1347-1356):
groups without files are dropped; a group with files contributes its file
paths (directory path joined with each file name) and its override set. -/
def groupStep (acc : List (List (List String) × List (String × V)))
    (cur : OGroup V) : List (List (List String) × List (String × V)) :=
  if cur.fileNames = [] then acc
  else acc ++ [(cur.fileNames.map (fun fn => cur.dirPath ++ [fn]), cur.overrides)]

/-- `createOverridesTree` (`src/endpoints.ts` 1334-1357): build the directory
tree of the file paths, walk it over the shared group list seeded with the
root group (root directory `[]`, its own override file `fsOv []`, no files),
then reduce to (file paths, overrides) pairs.  `fsOv` abstracts
`loadTxt2ImgOverrides` (`src/endpoints.ts` 1359-1372): the parsed content of
each directory's overrides file, `[]` when absent or unreadable. -/
def createOverridesTree (fsOv : List String → List (String × V))
    (filePaths : List (List String)) :
    List (List (List String) × List (String × V)) :=
  (walkChildren fsOv (createTree filePaths) [] (fsOv [])
    [⟨[], fsOv [], []⟩]).foldl groupStep []

theorem foldl_groupStep_mem_init (l : List (OGroup V))
    (init : List (List (List String) × List (String × V)))
    (x : List (List String) × List (String × V)) (hx : x ∈ init) :
    x ∈ l.foldl groupStep init := by
  induction l generalizing init with
  | nil => exact hx
  | cons c t ih =>
    rw [List.foldl_cons]
    refine ih _ ?_
    unfold groupStep
    split
    · exact hx
    · exact List.mem_append_left _ hx

theorem foldl_groupStep_mem (l : List (OGroup V))
    (init : List (List (List String) × List (String × V)))
    (g : OGroup V) (hg : g ∈ l) (hne : g.fileNames ≠ []) :
    (g.fileNames.map (fun fn => g.dirPath ++ [fn]), g.overrides)
      ∈ l.foldl groupStep init := by
  induction l generalizing init with
  | nil => cases hg
  | cons c t ih =>
    rw [List.foldl_cons]
    rcases List.mem_cons.mp hg with rfl | hg2
    · refine foldl_groupStep_mem_init t _ _ ?_
      unfold groupStep
      rw [if_neg hne]
      exact List.mem_append_right _ (List.mem_cons_self _ _)
    · exact ih _ hg2

/-- C8: `createOverridesTree` groups every input file path under the
effective override set of its containing directory — the merge of every
ancestor directory's own override set from the root downward (the root set
`fsOv []` seeding the walk) — and merging is right-biased at every step, so
on key collision the nearer directory wins: reading a key of the effective
set of `dir ++ [d]` yields `dir ++ [d]`'s own value when present and falls
back to the effective value at `dir` otherwise.  In particular
`root/sub/leaf.txt` is listed under `effOv fsOv [root, sub]`, which is the
root set merged with `root`'s then `root/sub`'s, later (nearer) sets
winning. -/
theorem createOverridesTree_spec (fsOv : List String → List (String × V))
    (filePaths : List (List String)) (p : List String)
    (hall : ∀ q ∈ filePaths, ValidFilePath q) (hp : p ∈ filePaths) :
    (∃ entry ∈ createOverridesTree fsOv filePaths,
        entry.2 = effOv fsOv p.dropLast ∧ p ∈ entry.1)
    ∧ (∀ dir d k, ovGet (effOv fsOv (dir ++ [d])) k
        = (ovGet (fsOv (dir ++ [d])) k).or (ovGet (effOv fsOv dir) k)) := by
  constructor
  · obtain ⟨hne, hext, hsegs⟩ := hall p hp
    have hwf : WFF (createTree filePaths) :=
      createTree_WFF filePaths (fun q hq => (hall q hq).2.2)
    have hchain0 : HasChain (createTree filePaths) p :=
      createTree_hasChain filePaths p hp hne
    have hdecomp := dropLast_append_getLastD p hne
    have hchain : HasChain (createTree filePaths)
        (p.dropLast ++ [p.getLastD ""]) := by
      rw [hdecomp]
      exact hchain0
    have hseed : AccInv fsOv ([⟨[], fsOv [], []⟩] : List (OGroup V)) := by
      constructor
      · simp
      · intro g hg
        simp only [List.mem_singleton] at hg
        subst hg
        rfl
    have hroot : ∃ g ∈ ([⟨[], fsOv [], []⟩] : List (OGroup V)),
        g.dirPath = ([] : List String) := ⟨_, List.mem_singleton_self _, rfl⟩
    have hspec := walkChildren_spec fsOv (createTree filePaths) []
      ([⟨[], fsOv [], []⟩]) hwf hroot hseed
    obtain ⟨g, hgmem, hgdir, hgfile⟩ :=
      hspec.2.2 p.dropLast (p.getLastD "") hchain hext
    refine ⟨(g.fileNames.map (fun fn => g.dirPath ++ [fn]), g.overrides),
      ?_, ?_, ?_⟩
    · unfold createOverridesTree
      refine foldl_groupStep_mem _ _ g hgmem ?_
      intro hcc
      rw [hcc] at hgfile
      cases hgfile
    · rw [hspec.1.2 g hgmem, hgdir]
      simp
    · refine List.mem_map.mpr ⟨p.getLastD "", hgfile, ?_⟩
      rw [hgdir]
      simpa using hdecomp
  · intro dir d k
    rw [effOv_snoc, ovGet_mergeOv]

/-- A concrete filesystem of override files: keys `a` and `b` at the root,
`b` overridden in `root`, `a` overridden in `root/sub`. -/
def wOv : List String → List (String × Nat) := fun p =>
  if p = [] then [("a", 1), ("b", 1)]
  else if p = ["root"] then [("b", 2)]
  else if p = ["root", "sub"] then [("a", 3)] else []

/-- Witness for C8 at the claim's own example `root/sub/leaf.txt`. -/
theorem createOverridesTree_spec_witness :
    (∀ q ∈ [["root", "sub", "leaf.txt"]], ValidFilePath q)
    ∧ ((∃ entry ∈ createOverridesTree wOv [["root", "sub", "leaf.txt"]],
          entry.2 = effOv wOv ["root", "sub"]
            ∧ ["root", "sub", "leaf.txt"] ∈ entry.1)
        ∧ (∀ dir d k, ovGet (effOv wOv (dir ++ [d])) k
            = (ovGet (wOv (dir ++ [d])) k).or (ovGet (effOv wOv dir) k))) :=
  ⟨by decide, createOverridesTree_spec wOv [["root", "sub", "leaf.txt"]]
    ["root", "sub", "leaf.txt"] (by decide) (by decide)⟩

end OverridesTreeMain

end SDAuto
